import Mathlib

/-!
Verification of the FolderScope filesystem scanner
(`internal/infrastructure/filesystem/scanner.go`) against its specification.

The scanner is embedded shallowly:

* the filesystem is an explicit tree (`FSTree`) of directories and files,
  where files carry their byte content and flags for the two per-file I/O
  failures the scanner distinguishes (open failure, non-EOF read failure),
  and directories carry a flag for a `ReadDir` failure during traversal;
* bytes are natural numbers, strings are Lean strings; the glob matcher
  works at rune (character) granularity, which coincides with Go's
  byte-level scanning plus UTF-8 decoding on the ASCII inputs of interest;
* the path separator is `/` (the scanner targets Unix-like systems);
* `filepath.WalkDir` together with the scanner's callback is embedded as a
  recursive walk over the tree; Go loops that are not structurally
  recursive are given an explicit fuel argument that provably dominates
  the number of iterations, so every definition is executable by the
  kernel;
* the `context.Context` cancellation signal is modelled by the index of
  the first callback invocation at which the signal is observed fired
  (`none` = never): the code polls the context once per callback
  invocation, and a fired signal stays fired.
-/

namespace FolderScope

/-! ### Glob matching: embedding of Go `path/filepath.Match` (Separator = '/')

`Scanner.matchesIgnorePattern` delegates glob matching to
`filepath.Match`.  The functions below mirror `match.go` of the Go
standard library: `getEsc`, the character-class range loop inside
`matchChunk`, `matchChunk`, `scanChunk`, the star-skip loop of `Match`,
the trailing syntactic-validity loop, and `Match` itself.  A result of
`none` is Go's `ErrBadPattern`. -/

/-- `getEsc` of Go `match.go`: read a possibly backslash-escaped character
from a character-class chunk.  `none` is `ErrBadPattern`. -/
def getEsc : List Char → Option (Char × List Char)
  | [] => none
  | c :: rest =>
    if c = '-' ∨ c = ']' then none
    else
      match (if c = '\\' then rest else c :: rest) with
      | [] => none
      | r :: nchunk => if nchunk = [] then none else some (r, nchunk)

/-- The range-parsing loop of the `[` case of Go `matchChunk`: parse ranges
`lo-hi` (or single characters) until an unescaped `]`, recording in `mtch`
whether the rune `r` fell in some range.  Every iteration consumes at least
one character of `chunk`, so fuel `chunk.length + 1` never runs out. -/
def parseRangesF (r : Char) : Nat → Bool → Nat → List Char → Option (Bool × List Char)
  | 0, _, _, _ => none
  | fuel + 1, mtch, nrange, chunk =>
    if chunk.head? = some ']' ∧ 0 < nrange then some (mtch, chunk.tail)
    else
      match getEsc chunk with
      | none => none
      | some (lo, chunk1) =>
        match chunk1 with
        | '-' :: chunk1' =>
          match getEsc chunk1' with
          | none => none
          | some (hi, chunk2) =>
            parseRangesF r fuel (if lo ≤ r ∧ r ≤ hi then true else mtch) (nrange + 1) chunk2
        | _ =>
          parseRangesF r fuel (if lo ≤ r ∧ r ≤ lo then true else mtch) (nrange + 1) chunk1

/-- Go `matchChunk`: match the leading non-star chunk of a pattern against
the head of `s`.  After a mismatch (`failed`), the chunk is still consumed
to completion so syntax errors are detected.  Returns the remainder of `s`
and whether the chunk matched; `none` is `ErrBadPattern`.  Every iteration
consumes at least one character of the chunk, so fuel `chunk.length + 1`
never runs out. -/
def matchChunkF : Nat → List Char → List Char → Bool → Option (List Char × Bool)
  | 0, _, _, _ => none
  | _ + 1, [], s, failed => if failed then some ([], false) else some (s, true)
  | fuel + 1, c :: ch, s, failed0 =>
    let failed := failed0 || s.isEmpty
    if c = '[' then
      let rs : Char × List Char :=
        match failed, s with
        | false, x :: xs => (x, xs)
        | _, _ => (Char.ofNat 0, s)
      let nc : Bool × List Char :=
        match ch with
        | '^' :: ch1 => (true, ch1)
        | _ => (false, ch)
      match parseRangesF rs.1 (nc.2.length + 1) false 0 nc.2 with
      | none => none
      | some (mtch, ch2) =>
        matchChunkF fuel ch2 rs.2 (if mtch = nc.1 then true else failed)
    else if c = '?' then
      match failed, s with
      | false, x :: xs => matchChunkF fuel ch xs (x == '/')
      | _, _ => matchChunkF fuel ch s failed
    else if c = '\\' then
      match ch with
      | [] => none
      | c2 :: ch2 =>
        match failed, s with
        | false, x :: xs => matchChunkF fuel ch2 xs (c2 != x)
        | _, _ => matchChunkF fuel ch2 s failed
    else
      match failed, s with
      | false, x :: xs => matchChunkF fuel ch xs (c != x)
      | _, _ => matchChunkF fuel ch s failed

/-- Go `matchChunk` with its dominating fuel. -/
def matchChunk (chunk s : List Char) (failed : Bool) : Option (List Char × Bool) :=
  matchChunkF (chunk.length + 1) chunk s failed

/-- The chunk scanner of Go `scanChunk` after leading stars are stripped:
collect characters up to the next unescaped `*` outside a character
class. -/
def scanBody : Bool → List Char → List Char × List Char
  | _, [] => ([], [])
  | inrange, c :: rest =>
    if c = '\\' then
      match rest with
      | c2 :: rest2 =>
        let (ch, rs) := scanBody inrange rest2
        (c :: c2 :: ch, rs)
      | [] => ([c], [])
    else if c = '[' then
      let (ch, rs) := scanBody true rest
      (c :: ch, rs)
    else if c = ']' then
      let (ch, rs) := scanBody false rest
      (c :: ch, rs)
    else if c = '*' ∧ inrange = false then
      ([], c :: rest)
    else
      let (ch, rs) := scanBody inrange rest
      (c :: ch, rs)

/-- Go `scanChunk`: strip leading stars, then read one chunk. -/
def scanChunk : List Char → Bool × List Char × List Char
  | '*' :: rest =>
    let r := scanChunk rest
    (true, r.2.1, r.2.2)
  | pattern =>
    let (chunk, rest) := scanBody false pattern
    (false, chunk, rest)

/-- Result of the star-skip loop inside Go `Match`. -/
inductive StarRes where
  | found (t : List Char)
  | nomatch
  | badPattern
deriving Repr, DecidableEq

/-- The star-skip loop of Go `Match`: try to match `chunk` at every later
position of `name`, never skipping over a `/`. -/
def starLoop (chunk : List Char) (patternEmpty : Bool) : List Char → StarRes
  | [] => .nomatch
  | x :: xs =>
    if x = '/' then .nomatch
    else
      match matchChunk chunk xs false with
      | some (t, true) =>
        if patternEmpty ∧ t ≠ [] then starLoop chunk patternEmpty xs
        else .found t
      | some (_, false) => starLoop chunk patternEmpty xs
      | none => .badPattern

/-- The final loop of Go `Match`: before returning a non-error `false`,
check that the remainder of the pattern is syntactically valid.  Each
iteration strictly shortens the pattern, so fuel `pattern.length + 1`
never runs out. -/
def checkRestF : Nat → List Char → Option Bool
  | 0, _ => none
  | _ + 1, [] => some false
  | fuel + 1, pattern =>
    let r := scanChunk pattern
    match matchChunk r.2.1 [] false with
    | none => none
    | some _ => checkRestF fuel r.2.2

/-- Go `filepath.Match` on character lists.  Each outer iteration strictly
shortens the pattern, so fuel `pattern.length + 1` never runs out. -/
def goMatchF : Nat → List Char → List Char → Option Bool
  | 0, _, _ => none
  | _ + 1, [], name => some name.isEmpty
  | fuel + 1, pattern, name =>
    let (star, chunk, rest) := scanChunk pattern
    if star ∧ chunk = [] then
      some (!(name.contains '/'))
    else
      match matchChunk chunk name false with
      | none => none
      | some (t, ok) =>
        if ok ∧ (t = [] ∨ rest ≠ []) then
          goMatchF fuel rest t
        else if star then
          match starLoop chunk rest.isEmpty name with
          | .found t' => goMatchF fuel rest t'
          | .badPattern => none
          | .nomatch => checkRestF (rest.length + 1) rest
        else
          checkRestF (rest.length + 1) rest

/-- `filepath.Match pattern name`: `none` is `ErrBadPattern`. -/
def globMatch (pattern name : String) : Option Bool :=
  goMatchF (pattern.data.length + 1) pattern.data name.data

/-! ### The scanner (`scanner.go`) -/

/-- `DefaultBinaryCheckSize` of `scanner.go`. -/
def DefaultBinaryCheckSize : Nat := 1024

/-- `DefaultIgnorePatterns` of `scanner.go`. -/
def DefaultIgnorePatterns : List String := [".git", ".DS_Store", ".idea", ".vscode"]

/-- The `Scanner` struct of `scanner.go` (without the logger, whose calls
do not influence the scan result). -/
structure Scanner where
  binaryCheckSize : Nat
  ignorePatterns : List String
  ignoreBinaryFiles : Bool
deriving Repr, DecidableEq

/-- `NewScanner`: the default ignore patterns are merged in front of the
caller-supplied ones, and the binary-check size is the default. -/
def NewScanner (ignorePatterns : List String) (ignoreBinaryFiles : Bool) : Scanner :=
  { binaryCheckSize := DefaultBinaryCheckSize
    ignorePatterns := DefaultIgnorePatterns ++ ignorePatterns
    ignoreBinaryFiles := ignoreBinaryFiles }

/-- `Scanner.isBinaryFile`: an empty byte sequence is not binary;
otherwise scan the first `min (length, binaryCheckSize)` bytes for a NUL
byte. -/
def Scanner.isBinaryFile (s : Scanner) (content : List Nat) : Bool :=
  if content.length = 0 then false
  else
    let limit := if content.length > s.binaryCheckSize then s.binaryCheckSize else content.length
    (content.take limit).any (fun b => b == 0)

/-- `strings.HasSuffix p (string filepath.Separator)` for the
one-character separator `/`: the last character is `/`. -/
def hasSepSuffix (p : String) : Bool := p.data.getLast? == some '/'

/-- `strings.TrimSuffix p "/"` for a `p` that ends in the one-character
separator: drop the last character. -/
def trimSepSuffix (p : String) : String := String.mk p.data.dropLast

/-- The pattern loop of `Scanner.matchesIgnorePattern`: a pattern ending in
the separator matches a directory whose base name equals the pattern with
the trailing separator trimmed; any other pattern is glob-matched against
the base name, and a malformed glob is skipped (treated as
non-matching). -/
def matchLoop (name : String) (isDir : Bool) : List String → Bool
  | [] => false
  | pattern :: rest =>
    if hasSepSuffix pattern then
      if isDir ∧ trimSepSuffix pattern = name then true
      else matchLoop name isDir rest
    else
      match globMatch pattern name with
      | none => matchLoop name isDir rest
      | some matched => if matched then true else matchLoop name isDir rest

/-- `Scanner.matchesIgnorePattern` (it reads only the base name and the
directory flag of the visited node, and never returns a non-nil error). -/
def Scanner.matchesIgnorePattern (s : Scanner) (name : String) (isDir : Bool) : Bool :=
  matchLoop name isDir s.ignorePatterns

/-! ### Filesystem model -/

/-- A filesystem subtree.  A file records its byte content, whether
`os.Open` fails on it, and whether the subsequent bounded `Read` fails
with a non-EOF error.  A directory records whether `os.ReadDir` fails on
it during `filepath.WalkDir` (the per-node access error of the
traversal). -/
inductive FSTree where
  | file (name : String) (content : List Nat) (openErr : Bool) (readErr : Bool)
  | dir (name : String) (readDirErr : Bool) (children : List FSTree)
deriving Repr

mutual

/-- Number of nodes of a subtree (used as recursion fuel for the walk:
it dominates the height). -/
def FSTree.size : FSTree → Nat
  | .file _ _ _ _ => 1
  | .dir _ _ cs => 1 + FSTree.sizeList cs

/-- Total number of nodes of a list of subtrees. -/
def FSTree.sizeList : List FSTree → Nat
  | [] => 0
  | c :: rest => FSTree.size c + FSTree.sizeList rest

end

/-- Base name of a node (`fs.DirEntry.Name`). -/
def FSTree.name : FSTree → String
  | .file n _ _ _ => n
  | .dir n _ _ => n

/-- Directory flag of a node (`fs.DirEntry.IsDir`). -/
def FSTree.isDir : FSTree → Bool
  | .file _ _ _ _ => false
  | .dir _ _ _ => true

/-- `model.FileSystemEntry`.  `ReadErr error` is modelled by presence
(`readErr : Bool`). -/
structure FileSystemEntry where
  path : String
  isDir : Bool
  relPath : String
  depth : Nat
  isBinary : Bool
  readErr : Bool
deriving Repr, DecidableEq

/-- `strings.Count relPath "/"`: the separator is one character, so this
is the number of `'/'` characters. -/
def countSlash (s : String) : Nat := s.data.count '/'

/-- The `/`-joined relative path of a component list (the value
`filepath.Rel` + `filepath.ToSlash` produce for a node below the root;
`[]` is the root itself). -/
def relString : List String → String
  | [] => ""
  | [n] => n
  | n :: rest => n ++ "/" ++ relString rest

/-- Absolute path of a node (root path joined with the relative path). -/
def entryPath (rootPath relPath : String) : String := rootPath ++ "/" ++ relPath

/-- Result of one invocation of the `WalkDir` callback in `Scan`: the
callback returns `nil`, `fs.SkipDir`, or `ctx.Err()`. -/
inductive CbRes where
  | ok
  | skipDir
  | canceled
deriving Repr, DecidableEq

/-- One invocation of the closure `Scan` passes to `filepath.WalkDir`, in
source order: poll the context; handle a traversal error (directory:
`fs.SkipDir`, file: `nil`); skip the root; check the ignore patterns
(directory: `fs.SkipDir`, file: `nil`); build the entry with relative
path and depth; for a file, record an open or read failure in `readErr`
(classification is skipped on a failure, so `isBinary` stays `false`),
otherwise classify the bytes actually read — the first
`min (length, binaryCheckSize)` bytes — and suppress the entry if binary
files are ignored and it is binary.  Returns the callback result and the
entry appended to the accumulator, if any. -/
def Scanner.scanCallback (s : Scanner) (cancelled : Bool) (isRoot : Bool)
    (rootPath relPath : String) (t : FSTree) (walkErr : Bool) :
    CbRes × Option FileSystemEntry :=
  if cancelled then (.canceled, none)
  else if walkErr then
    (if t.isDir then .skipDir else .ok, none)
  else if isRoot then (.ok, none)
  else if s.matchesIgnorePattern t.name t.isDir then
    (if t.isDir then .skipDir else .ok, none)
  else
    let depth := countSlash relPath
    match t with
    | .dir _ _ _ =>
      (.ok, some { path := entryPath rootPath relPath, isDir := true,
                   relPath := relPath, depth := depth,
                   isBinary := false, readErr := false })
    | .file _ content openErr readErr =>
      let re := openErr || readErr
      let isBin := if re then false else s.isBinaryFile (content.take s.binaryCheckSize)
      if s.ignoreBinaryFiles ∧ isBin then (.ok, none)
      else
        (.ok, some { path := entryPath rootPath relPath, isDir := false,
                     relPath := relPath, depth := depth,
                     isBinary := isBin, readErr := re })

/-- Whether the cancellation signal is observed fired at the given
callback-invocation index: it fires at index `k` and stays fired. -/
def ctxDone : Option Nat → Nat → Bool
  | some k, idx => decide (k ≤ idx)
  | none, _ => false

/-- The loop of Go `walkDir` over the entries of a directory: walk each
child in order; a non-`SkipDir` error (only cancellation here) aborts and
propagates.  Accumulates entries, threads the invocation index, and
reports abortion. -/
def walkSeq (walk1 : FSTree → Nat → List FileSystemEntry × Nat × Bool) :
    List FSTree → Nat → List FileSystemEntry × Nat × Bool
  | [], idx => ([], idx, false)
  | c :: rest, idx =>
    let (es, idx2, ab) := walk1 c idx
    if ab then (es, idx2, true)
    else
      let (es2, idx3, ab2) := walkSeq walk1 rest idx2
      (es ++ es2, idx3, ab2)

/-- Go `filepath.WalkDir` from `Scan`, specialised to the callback above:
visit the node (one callback invocation); a directory whose callback
returned `nil` is read, and a `ReadDir` failure triggers a second callback
invocation on the same node with the error (which the callback answers
with `fs.SkipDir`, pruning the subtree, unless the context was cancelled
first); otherwise the children are walked in order.  `comps` is the
component list of the node relative to the root (`[]` for the root),
`idx` the index of the node's callback invocation.  The walk of a node
makes at most `sizeOf t` levels of recursion, so that fuel suffices. -/
def walkNodeF (s : Scanner) (cancelAt : Option Nat) (rootPath : String) :
    Nat → FSTree → List String → Nat → List FileSystemEntry × Nat × Bool
  | 0, _, _, idx => ([], idx, false)
  | fuel + 1, t, comps, idx =>
    let (res, eOpt) :=
      s.scanCallback (ctxDone cancelAt idx) comps.isEmpty rootPath (relString comps) t false
    match res with
    | .canceled => (eOpt.toList, idx + 1, true)
    | .skipDir => (eOpt.toList, idx + 1, false)
    | .ok =>
      match t with
      | .file _ _ _ _ => (eOpt.toList, idx + 1, false)
      | .dir _ readDirErr children =>
        if readDirErr then
          let (res2, _) :=
            s.scanCallback (ctxDone cancelAt (idx + 1)) comps.isEmpty rootPath
              (relString comps) t true
          match res2 with
          | .canceled => (eOpt.toList, idx + 2, true)
          | _ => (eOpt.toList, idx + 2, false)
        else
          let (es, idx2, ab) :=
            walkSeq (fun c i => walkNodeF s cancelAt rootPath fuel c (comps ++ [c.name]) i)
              children (idx + 1)
          (eOpt.toList ++ es, idx2, ab)

/-- Scan errors surfaced to the caller of `Scan` on this model: the
resolved root is not a directory, or the context was cancelled (the code
maps `context.Canceled` / `context.DeadlineExceeded` to a distinct
outcome and discards the accumulated entries). -/
inductive ScanError where
  | rootNotDir
  | canceled
deriving Repr, DecidableEq

/-- `Scanner.Scan` on the tree model: validate that the root is a
directory, walk it, and either return the accumulated entries or discard
them and report cancellation. -/
def Scanner.Scan (s : Scanner) (cancelAt : Option Nat) (rootPath : String) (root : FSTree) :
    Except ScanError (List FileSystemEntry) :=
  if root.isDir = false then .error .rootNotDir
  else
    let r := walkNodeF s cancelAt rootPath root.size root [] 0
    if r.2.2 then .error .canceled else .ok r.1

/-! ### Path validation (`ValidateDirectoryPath`) -/

/-- The four validation failure categories of `ValidateDirectoryPath`, in
source order: empty path, `os.Stat` failure, not a directory, null byte
in the path. -/
inductive ValidationError where
  | emptyPath
  | notFound
  | notADirectory
  | unsafePath
deriving Repr, DecidableEq

/-- Whether a path contains a null byte (`strings.ContainsRune path 0`). -/
def containsNul (path : String) : Bool := path.data.contains (Char.ofNat 0)

/-- `Scanner.ValidateDirectoryPath`, parametrised by a `stat` oracle for
the ambient filesystem (`none` = `os.Stat` fails, `some b` = it succeeds
and `b` tells whether the path is a directory).  The checks run in source
order: empty path, stat, directory kind, null byte. -/
def ValidateDirectoryPath (stat : String → Option Bool) (path : String) :
    Option ValidationError :=
  if path = "" then some .emptyPath
  else
    match stat path with
    | none => some .notFound
    | some isDir =>
      if isDir = false then some .notADirectory
      else if containsNul path then some .unsafePath
      else none

/-! ### Specification-side helper functions for the proofs -/

/-- The entries produced by an uncancelled walk of a subtree, each
annotated with the component list of the node it came from.  This is the
walk of `walkNodeF` with the invocation counting and abortion flag
stripped (they are irrelevant without cancellation); the correspondence
is proved below. -/
def annWalkF (s : Scanner) (rootPath : String) :
    Nat → FSTree → List String → List (List String × FileSystemEntry)
  | 0, _, _ => []
  | fuel + 1, t, comps =>
    let (res, eOpt) :=
      s.scanCallback false comps.isEmpty rootPath (relString comps) t false
    let own := (eOpt.map (fun e => (comps, e))).toList
    match res with
    | .canceled => own
    | .skipDir => own
    | .ok =>
      match t with
      | .file _ _ _ _ => own
      | .dir _ readDirErr children =>
        if readDirErr then own
        else own ++ (children.map (fun c => annWalkF s rootPath fuel c (comps ++ [c.name]))).flatten

/-- Number of callback invocations an uncancelled walk of a subtree
makes: one per node, except that an ignored (non-root) directory costs
one and prunes its children, and a directory with a `ReadDir` failure
costs two (the error-reporting second invocation) and loses its
children. -/
def visitsF (s : Scanner) : Nat → Bool → FSTree → Nat
  | 0, _, _ => 0
  | fuel + 1, isRoot, t =>
    match t with
    | .file _ _ _ _ => 1
    | .dir n readDirErr children =>
      if isRoot = false ∧ s.matchesIgnorePattern n true then 1
      else if readDirErr then 2
      else 1 + (children.map (fun c => visitsF s fuel false c)).sum

/-- A legal filesystem name: nonempty and without the path separator. -/
def validNameB (n : String) : Bool := !n.data.isEmpty && !decide ('/' ∈ n.data)

mutual

/-- A tree is a legal filesystem: every name is legal and sibling names
are distinct. -/
def FSTree.validB : FSTree → Bool
  | .file n _ _ _ => validNameB n
  | .dir n _ cs => validNameB n && FSTree.validListB cs && decide ((cs.map FSTree.name).Nodup)

/-- `FSTree.validB` for every tree of a list. -/
def FSTree.validListB : List FSTree → Bool
  | [] => true
  | c :: rest => FSTree.validB c && FSTree.validListB rest

end

mutual

/-- Number of file nodes of a subtree whose content the classifier deems
binary (a NUL byte among the first `min (length, binaryCheckSize)`
bytes), regardless of whether a scan reaches or classifies them. -/
def FSTree.binCount (s : Scanner) : FSTree → Nat
  | .file _ content _ _ => if s.isBinaryFile content then 1 else 0
  | .dir _ _ cs => FSTree.binCountList s cs

/-- `FSTree.binCount` summed over a list of subtrees. -/
def FSTree.binCountList (s : Scanner) : List FSTree → Nat
  | [] => 0
  | c :: rest => FSTree.binCount s c + FSTree.binCountList s rest

end

/-- The pre-order block invariant: however an annotated entry list is
split around one element, that element's component list strictly extends
`base`, and unless the element is an immediate child of `base`, the
element's parent component list occurs (on a directory entry) in the
part of the list before the element. -/
def BlockOK (base : List String) (out : List (List String × FileSystemEntry)) : Prop :=
  ∀ pre ce post, out = pre ++ ce :: post →
    base <+: ce.1 ∧ ce.1 ≠ base ∧
      (ce.1.dropLast = base ∨
        ∃ pe ∈ pre, pe.1 = ce.1.dropLast ∧ pe.2.isDir = true)

/-! ### The uncancelled walk computes the annotated walk -/

theorem map_snd_annOwn (comps : List String) (eOpt : Option FileSystemEntry) :
    ((eOpt.map (fun e => (comps, e))).toList).map Prod.snd = eOpt.toList := by
  cases eOpt <;> simp

theorem isEmpty_append_singleton {α : Type} (l : List α) (a : α) :
    (l ++ [a]).isEmpty = false := by
  cases l <;> rfl

theorem scanCallback_fst_file (s : Scanner) (ir : Bool) (rp rel : String)
    (n : String) (cnt : List Nat) (oe re we : Bool) :
    (s.scanCallback false ir rp rel (.file n cnt oe re) we).1 = .ok := by
  simp only [Scanner.scanCallback, FSTree.isDir]
  split_ifs <;> simp_all

theorem walkSeq_of_pointwise (walk1 : FSTree → Nat → List FileSystemEntry × Nat × Bool)
    (f : FSTree → List FileSystemEntry) (v : FSTree → Nat) (cs : List FSTree)
    (h : ∀ c ∈ cs, ∀ idx, walk1 c idx = (f c, idx + v c, false)) :
    ∀ idx, walkSeq walk1 cs idx =
      ((cs.map f).flatten, idx + (cs.map v).sum, false) := by
  induction cs with
  | nil => intro idx; simp [walkSeq]
  | cons c rest ih =>
    intro idx
    have hc := h c (by simp) idx
    have hrest := ih (fun c hc => h c (by simp [hc])) (idx + v c)
    simp only [walkSeq, hc, hrest]
    simp [List.flatten_cons]
    omega

theorem walkNodeF_none (s : Scanner) (rootPath : String) :
    ∀ fuel t comps idx,
      walkNodeF s none rootPath fuel t comps idx =
        ((annWalkF s rootPath fuel t comps).map Prod.snd,
          idx + visitsF s fuel comps.isEmpty t, false) := by
  intro fuel
  induction fuel with
  | zero => intro t comps idx; simp [walkNodeF, annWalkF, visitsF]
  | succ fuel ih =>
    intro t comps idx
    cases t with
    | file n cnt oe re =>
      have hcb := scanCallback_fst_file s comps.isEmpty rootPath (relString comps) n cnt oe re false
      rcases hres : s.scanCallback false comps.isEmpty rootPath (relString comps)
          (.file n cnt oe re) false with ⟨res, eOpt⟩
      rw [hres] at hcb
      simp only at hcb
      subst hcb
      simp [walkNodeF, annWalkF, visitsF, ctxDone, hres, map_snd_annOwn]
    | dir n rdErr children =>
      cases hroot : comps.isEmpty with
      | true =>
        have hcb : s.scanCallback false true rootPath (relString comps)
            (.dir n rdErr children) false = (.ok, none) := by
          simp [Scanner.scanCallback]
        cases rdErr with
        | true =>
          have hcb2 : s.scanCallback false true rootPath (relString comps)
              (.dir n true children) true = (.skipDir, none) := by
            simp [Scanner.scanCallback, FSTree.isDir]
          simp [walkNodeF, annWalkF, visitsF, ctxDone, hroot, hcb, hcb2]
        | false =>
          have hseq := walkSeq_of_pointwise
            (fun c i => walkNodeF s none rootPath fuel c (comps ++ [c.name]) i)
            (fun c => (annWalkF s rootPath fuel c (comps ++ [c.name])).map Prod.snd)
            (fun c => visitsF s fuel false c) children
            (by
              intro c _ i
              have := ih c (comps ++ [c.name]) i
              simpa [isEmpty_append_singleton] using this)
            (idx + 1)
          simp only [walkNodeF, annWalkF, visitsF, ctxDone, hroot, hcb, hseq]
          simp [List.map_flatten, Function.comp]
          exact ⟨rfl, by omega⟩
      | false =>
        cases hig : s.matchesIgnorePattern n true with
        | true =>
          have hcb : s.scanCallback false false rootPath (relString comps)
              (.dir n rdErr children) false = (.skipDir, none) := by
            simp [Scanner.scanCallback, FSTree.isDir, FSTree.name, hig]
          simp [walkNodeF, annWalkF, visitsF, ctxDone, hroot, hcb, hig]
        | false =>
          have hcb : s.scanCallback false false rootPath (relString comps)
              (.dir n rdErr children) false =
            (.ok, some { path := entryPath rootPath (relString comps), isDir := true,
                         relPath := relString comps, depth := countSlash (relString comps),
                         isBinary := false, readErr := false }) := by
            simp [Scanner.scanCallback, FSTree.isDir, FSTree.name, hig]
          cases rdErr with
          | true =>
            have hcb2 : s.scanCallback false false rootPath (relString comps)
                (.dir n true children) true = (.skipDir, none) := by
              simp [Scanner.scanCallback, FSTree.isDir]
            simp [walkNodeF, annWalkF, visitsF, ctxDone, hroot, hcb, hcb2, hig]
          | false =>
            have hseq := walkSeq_of_pointwise
              (fun c i => walkNodeF s none rootPath fuel c (comps ++ [c.name]) i)
              (fun c => (annWalkF s rootPath fuel c (comps ++ [c.name])).map Prod.snd)
              (fun c => visitsF s fuel false c) children
              (by
                intro c _ i
                have := ih c (comps ++ [c.name]) i
                simpa [isEmpty_append_singleton] using this)
              (idx + 1)
            simp only [walkNodeF, annWalkF, visitsF, ctxDone, hroot, hcb, hig, hseq]
            simp [List.map_flatten, Function.comp]
            exact ⟨rfl, by omega⟩

theorem Scan_none_eq (s : Scanner) (rp : String) (t : FSTree) (h : t.isDir = true) :
    s.Scan none rp t = .ok ((annWalkF s rp t.size t []).map Prod.snd) := by
  simp [Scanner.Scan, h, walkNodeF_none]

theorem annWalkF_mem_cases (s : Scanner) (rp : String) (fuel : Nat) (t : FSTree)
    (comps : List String) (ce : List String × FileSystemEntry)
    (h : ce ∈ annWalkF s rp (fuel + 1) t comps) :
    (∃ e, (s.scanCallback false comps.isEmpty rp (relString comps) t false).2 = some e ∧
      ce = (comps, e)) ∨
    (∃ n children c, t = .dir n false children ∧ c ∈ children ∧
      ce ∈ annWalkF s rp fuel c (comps ++ [c.name])) := by
  rcases hcb : s.scanCallback false comps.isEmpty rp (relString comps) t false with ⟨res, eOpt⟩
  simp only [annWalkF, hcb] at h
  have hown : ∀ hm : ce ∈ (eOpt.map (fun e => (comps, e))).toList,
      ∃ e, eOpt = some e ∧ ce = (comps, e) := by
    intro hm
    cases eOpt with
    | none => simp at hm
    | some e => simp at hm; exact ⟨e, rfl, hm⟩
  cases res with
  | canceled =>
    obtain ⟨e, he, hce⟩ := hown h
    exact .inl ⟨e, by simp [hcb, he], hce⟩
  | skipDir =>
    obtain ⟨e, he, hce⟩ := hown h
    exact .inl ⟨e, by simp [hcb, he], hce⟩
  | ok =>
    cases t with
    | file n cnt oe re =>
      obtain ⟨e, he, hce⟩ := hown h
      exact .inl ⟨e, by simp [hcb, he], hce⟩
    | dir n rdErr children =>
      cases rdErr with
      | true =>
        obtain ⟨e, he, hce⟩ := hown h
        exact .inl ⟨e, by simp [hcb, he], hce⟩
      | false =>
        rcases List.mem_append.mp h with hm | hm
        · obtain ⟨e, he, hce⟩ := hown hm
          exact .inl ⟨e, by simp [hcb, he], hce⟩
        · rcases List.mem_flatten.mp hm with ⟨l, hl, hcel⟩
          rcases List.mem_map.mp hl with ⟨c, hc, rfl⟩
          exact .inr ⟨n, children, c, rfl, hc, hcel⟩

theorem scanCallback_entry_shape (s : Scanner) (cancelled isRoot : Bool) (rp rel : String)
    (t : FSTree) (we : Bool) (e : FileSystemEntry)
    (h : (s.scanCallback cancelled isRoot rp rel t we).2 = some e) :
    e.relPath = rel ∧ e.depth = countSlash rel ∧ e.path = entryPath rp rel ∧
      e.isDir = t.isDir := by
  cases t with
  | dir n rd cs =>
    simp only [Scanner.scanCallback, FSTree.isDir] at h
    split_ifs at h
    all_goals simp only [Option.some.injEq] at h
    all_goals first
      | exact absurd h (by simp)
      | (subst h; simp [FSTree.isDir])
  | file n cnt oe re =>
    simp only [Scanner.scanCallback, FSTree.isDir] at h
    split_ifs at h
    all_goals simp only [Option.some.injEq] at h
    all_goals first
      | exact absurd h (by simp)
      | (subst h; simp [FSTree.isDir])

theorem scanCallback_entry_flags (s : Scanner) (cancelled isRoot : Bool) (rp rel : String)
    (t : FSTree) (we : Bool) (e : FileSystemEntry)
    (h : (s.scanCallback cancelled isRoot rp rel t we).2 = some e) :
    (t.isDir = true → e.isBinary = false ∧ e.readErr = false) ∧
    (∀ n cnt oe re, t = .file n cnt oe re →
      e.readErr = (oe || re) ∧
      e.isBinary = (if (oe || re) = true then false
                    else s.isBinaryFile (cnt.take s.binaryCheckSize)) ∧
      (s.ignoreBinaryFiles = true → e.isBinary = false)) := by
  cases t with
  | dir n rd cs =>
    simp only [Scanner.scanCallback, FSTree.isDir] at h
    split_ifs at h
    all_goals simp only [Option.some.injEq] at h
    all_goals first
      | exact absurd h (by simp)
      | (subst h
         constructor
         · intro _; exact ⟨rfl, rfl⟩
         · intro n' cnt' oe' re' heq; exact absurd heq (by simp))
  | file n cnt oe re =>
    constructor
    · intro hd; exact absurd hd (by simp [FSTree.isDir])
    · intro n' cnt' oe' re' heq
      injection heq with e1 e2 e3 e4
      subst e1; subst e2; subst e3; subst e4
      cases hre : (oe || re) with
      | true =>
        simp only [Scanner.scanCallback, FSTree.isDir, hre] at h
        split_ifs at h
        all_goals simp only [Option.some.injEq] at h
        all_goals first
          | exact absurd h (by simp)
          | (subst h; exact ⟨by simp [hre], by simp [hre], by intro _; simp⟩)
      | false =>
        simp only [Scanner.scanCallback, FSTree.isDir, hre] at h
        split_ifs at h
        all_goals simp only [Option.some.injEq] at h
        all_goals try subst h
        all_goals simp_all [hre]

/-- Elementwise facts about the annotated walk: every produced component
list extends the component list of the walked node, and the entry's
relative path and depth are determined by its component list. -/
theorem annWalkF_elem (s : Scanner) (rp : String) :
    ∀ fuel t comps ce, ce ∈ annWalkF s rp fuel t comps →
      comps <+: ce.1 ∧ ce.2.relPath = relString ce.1 ∧
        ce.2.depth = countSlash (relString ce.1) := by
  intro fuel
  induction fuel with
  | zero => intro t comps ce h; simp [annWalkF] at h
  | succ fuel ih =>
    intro t comps ce h
    rcases annWalkF_mem_cases s rp fuel t comps ce h with ⟨e, he, rfl⟩ | ⟨n, children, c, rfl, hc, hce⟩
    · obtain ⟨h1, h2, _, _⟩ := scanCallback_entry_shape s false comps.isEmpty rp
        (relString comps) t false e he
      exact ⟨List.prefix_refl _, h1, h2⟩
    · obtain ⟨hp, h1, h2⟩ := ih c (comps ++ [c.name]) ce hce
      exact ⟨(List.prefix_append _ _).trans hp, h1, h2⟩

/-! ### Size bookkeeping -/

theorem FSTree.size_pos (t : FSTree) : 1 ≤ t.size := by
  cases t <;> simp [FSTree.size]

theorem FSTree.size_le_sizeList (c : FSTree) (cs : List FSTree) (h : c ∈ cs) :
    c.size ≤ FSTree.sizeList cs := by
  induction cs with
  | nil => simp at h
  | cons d rest ih =>
    rcases List.mem_cons.mp h with rfl | hm
    · simp [FSTree.sizeList]
    · have := ih hm
      simp [FSTree.sizeList]
      omega

/-! ### Cancellation: the walk aborts exactly when the signal fires before
the uncancelled walk would have finished -/

theorem walkSeq_of_pointwise_bounded
    (walk1 : FSTree → Nat → List FileSystemEntry × Nat × Bool)
    (f : FSTree → List FileSystemEntry) (v : FSTree → Nat) (cs : List FSTree) (k : Nat)
    (h : ∀ c ∈ cs, ∀ idx, idx + v c ≤ k → walk1 c idx = (f c, idx + v c, false)) :
    ∀ idx, idx + (cs.map v).sum ≤ k →
      walkSeq walk1 cs idx = ((cs.map f).flatten, idx + (cs.map v).sum, false) := by
  induction cs with
  | nil => intro idx _; simp [walkSeq]
  | cons c rest ih =>
    intro idx hle
    have hsum : idx + v c ≤ k := by simp at hle; omega
    have hc := h c (by simp) idx hsum
    have hrest := ih (fun c hc => h c (by simp [hc])) (idx + v c) (by simp at hle ⊢; omega)
    simp only [walkSeq, hc, hrest]
    simp [List.flatten_cons]
    omega

theorem walkNodeF_cancel_of_le (s : Scanner) (rp : String) (k : Nat) :
    ∀ fuel t comps idx, idx + visitsF s fuel comps.isEmpty t ≤ k →
      walkNodeF s (some k) rp fuel t comps idx = walkNodeF s none rp fuel t comps idx := by
  intro fuel
  induction fuel with
  | zero => intro t comps idx _; simp [walkNodeF]
  | succ fuel ih =>
    intro t comps idx hle
    have hpos : 1 ≤ visitsF s (fuel + 1) comps.isEmpty t := by
      cases t with
      | file n cnt oe re => simp [visitsF]
      | dir n rdErr children => simp only [visitsF]; split_ifs <;> simp
    have hidx : ¬ k ≤ idx := by omega
    have hdone : (decide (k ≤ idx)) = false := decide_eq_false hidx
    cases t with
    | file n cnt oe re =>
      simp [walkNodeF, hdone, ctxDone]
    | dir n rdErr children =>
      cases hroot : comps.isEmpty with
      | true =>
        cases rdErr with
        | true =>
          have hdone2 : (decide (k ≤ idx + 1)) = false := by
            simp [visitsF, hroot] at hle
            exact decide_eq_false (by omega)
          simp [walkNodeF, hdone, hdone2, ctxDone]
        | false =>
          have hsum : idx + 1 + (children.map (fun c => visitsF s fuel false c)).sum ≤ k := by
            simp [visitsF, hroot] at hle
            omega
          have hseq := walkSeq_of_pointwise_bounded
            (fun c i => walkNodeF s (some k) rp fuel c (comps ++ [c.name]) i)
            (fun c => (annWalkF s rp fuel c (comps ++ [c.name])).map Prod.snd)
            (fun c => visitsF s fuel false c) children k
            (by
              intro c _ i hi
              show walkNodeF s (some k) rp fuel c (comps ++ [c.name]) i =
                ((annWalkF s rp fuel c (comps ++ [c.name])).map Prod.snd,
                  i + visitsF s fuel false c, false)
              rw [ih c (comps ++ [c.name]) i (by simpa [isEmpty_append_singleton] using hi)]
              have := walkNodeF_none s rp fuel c (comps ++ [c.name]) i
              simpa [isEmpty_append_singleton] using this)
            (idx + 1) hsum
          have hseq' := walkSeq_of_pointwise
            (fun c i => walkNodeF s none rp fuel c (comps ++ [c.name]) i)
            (fun c => (annWalkF s rp fuel c (comps ++ [c.name])).map Prod.snd)
            (fun c => visitsF s fuel false c) children
            (by
              intro c _ i
              have := walkNodeF_none s rp fuel c (comps ++ [c.name]) i
              simpa [isEmpty_append_singleton] using this)
            (idx + 1)
          have hcb : s.scanCallback false true rp (relString comps)
              (.dir n false children) false = (.ok, none) := by
            simp [Scanner.scanCallback]
          simp only [walkNodeF, hdone, ctxDone, hroot, hcb, hseq, hseq']
          simp
      | false =>
        cases hig : s.matchesIgnorePattern n true with
        | true =>
          have hcb : s.scanCallback false false rp (relString comps)
              (.dir n rdErr children) false = (.skipDir, none) := by
            simp [Scanner.scanCallback, FSTree.isDir, FSTree.name, hig]
          simp [walkNodeF, hdone, ctxDone, hroot, hcb]
        | false =>
          cases rdErr with
          | true =>
            have hdone2 : (decide (k ≤ idx + 1)) = false := by
              simp [visitsF, hroot, hig] at hle
              exact decide_eq_false (by omega)
            simp [walkNodeF, hdone, hdone2, ctxDone]
          | false =>
            have hsum : idx + 1 + (children.map (fun c => visitsF s fuel false c)).sum ≤ k := by
              simp [visitsF, hroot, hig] at hle
              omega
            have hseq := walkSeq_of_pointwise_bounded
              (fun c i => walkNodeF s (some k) rp fuel c (comps ++ [c.name]) i)
              (fun c => (annWalkF s rp fuel c (comps ++ [c.name])).map Prod.snd)
              (fun c => visitsF s fuel false c) children k
              (by
                intro c _ i hi
                show walkNodeF s (some k) rp fuel c (comps ++ [c.name]) i =
                  ((annWalkF s rp fuel c (comps ++ [c.name])).map Prod.snd,
                    i + visitsF s fuel false c, false)
                rw [ih c (comps ++ [c.name]) i (by simpa [isEmpty_append_singleton] using hi)]
                have := walkNodeF_none s rp fuel c (comps ++ [c.name]) i
                simpa [isEmpty_append_singleton] using this)
              (idx + 1) hsum
            have hseq' := walkSeq_of_pointwise
              (fun c i => walkNodeF s none rp fuel c (comps ++ [c.name]) i)
              (fun c => (annWalkF s rp fuel c (comps ++ [c.name])).map Prod.snd)
              (fun c => visitsF s fuel false c) children
              (by
                intro c _ i
                have := walkNodeF_none s rp fuel c (comps ++ [c.name]) i
                simpa [isEmpty_append_singleton] using this)
              (idx + 1)
            have hcb : s.scanCallback false false rp (relString comps)
                (.dir n false children) false =
              (.ok, some { path := entryPath rp (relString comps), isDir := true,
                           relPath := relString comps, depth := countSlash (relString comps),
                           isBinary := false, readErr := false }) := by
              simp [Scanner.scanCallback, FSTree.isDir, FSTree.name, hig]
            simp only [walkNodeF, hdone, ctxDone, hroot, hcb, hseq, hseq']
            simp

theorem scanCallback_cancelled (s : Scanner) (isRoot : Bool) (rp rel : String)
    (t : FSTree) (we : Bool) :
    s.scanCallback true isRoot rp rel t we = (.canceled, none) := by
  simp [Scanner.scanCallback]

theorem walkNodeF_cancel_immediate (s : Scanner) (rp : String) (k : Nat)
    (fuel : Nat) (t : FSTree) (comps : List String) (idx : Nat)
    (hfuel : 1 ≤ fuel) (hk : k ≤ idx) :
    walkNodeF s (some k) rp fuel t comps idx = ([], idx + 1, true) := by
  obtain ⟨fuel', rfl⟩ : ∃ f, fuel = f + 1 := ⟨fuel - 1, by omega⟩
  have hdone : (decide (k ≤ idx)) = true := decide_eq_true hk
  simp [walkNodeF, ctxDone, hdone, scanCallback_cancelled]

theorem walkSeq_cancel_aborts (s : Scanner) (rp : String) (k fuel : Nat)
    (comps : List String) (cs : List FSTree)
    (hA : ∀ c ∈ cs, ∀ idx, idx + visitsF s fuel false c ≤ k →
      walkNodeF s (some k) rp fuel c (comps ++ [c.name]) idx =
        ((annWalkF s rp fuel c (comps ++ [c.name])).map Prod.snd,
          idx + visitsF s fuel false c, false))
    (hB : ∀ c ∈ cs, ∀ idx, k < idx + visitsF s fuel false c →
      (walkNodeF s (some k) rp fuel c (comps ++ [c.name]) idx).2.2 = true) :
    ∀ idx, idx ≤ k → k < idx + (cs.map (fun c => visitsF s fuel false c)).sum →
      (walkSeq (fun c i => walkNodeF s (some k) rp fuel c (comps ++ [c.name]) i)
        cs idx).2.2 = true := by
  induction cs with
  | nil => intro idx hle hlt; simp at hlt; omega
  | cons c rest ih =>
    intro idx hle hlt
    by_cases hc : k < idx + visitsF s fuel false c
    · have hab := hB c (by simp) idx hc
      rcases h1 : walkNodeF s (some k) rp fuel c (comps ++ [c.name]) idx with ⟨es, idx2, ab⟩
      rw [h1] at hab
      simp only at hab
      simp [walkSeq, h1, hab]
    · push_neg at hc
      have hclean := hA c (by simp) idx hc
      have hrest := ih (fun c hm => hA c (by simp [hm])) (fun c hm => hB c (by simp [hm]))
        (idx + visitsF s fuel false c) hc (by simp at hlt ⊢; omega)
      simp [walkSeq, hclean]
      rcases h2 : walkSeq (fun c i => walkNodeF s (some k) rp fuel c (comps ++ [c.name]) i)
          rest (idx + visitsF s fuel false c) with ⟨es2, idx3, ab2⟩
      rw [h2] at hrest
      simpa using hrest

theorem walkNodeF_cancel_aborts (s : Scanner) (rp : String) (k : Nat) :
    ∀ fuel t comps idx, FSTree.size t ≤ fuel →
      k < idx + visitsF s fuel comps.isEmpty t →
      (walkNodeF s (some k) rp fuel t comps idx).2.2 = true := by
  intro fuel
  induction fuel with
  | zero =>
    intro t comps idx hsz _
    have := FSTree.size_pos t
    omega
  | succ fuel ih =>
    intro t comps idx hsz hlt
    by_cases hk : k ≤ idx
    · rw [walkNodeF_cancel_immediate s rp k (fuel + 1) t comps idx (by omega) hk]
    · push_neg at hk
      have hdone : (decide (k ≤ idx)) = false := decide_eq_false (by omega)
      cases t with
      | file n cnt oe re =>
        simp [visitsF] at hlt
        omega
      | dir n rdErr children =>
        have hkids : ∀ c ∈ children, FSTree.size c ≤ fuel := by
          intro c hm
          have h1 := FSTree.size_le_sizeList c children hm
          simp [FSTree.size] at hsz
          omega
        cases hroot : comps.isEmpty with
        | true =>
          cases rdErr with
          | true =>
            have hdone2 : (decide (k ≤ idx + 1)) = true := by
              simp [visitsF, hroot] at hlt
              exact decide_eq_true (by omega)
            have hcb : s.scanCallback false true rp (relString comps)
                (.dir n true children) false = (.ok, none) := by
              simp [Scanner.scanCallback]
            simp [walkNodeF, ctxDone, hdone, hdone2, hroot, hcb, scanCallback_cancelled]
          | false =>
            have hcb : s.scanCallback false true rp (relString comps)
                (.dir n false children) false = (.ok, none) := by
              simp [Scanner.scanCallback]
            have habort := walkSeq_cancel_aborts s rp k fuel comps children
              (by
                intro c _ i hi
                rw [walkNodeF_cancel_of_le s rp k fuel c (comps ++ [c.name]) i
                  (by simpa [isEmpty_append_singleton] using hi)]
                have := walkNodeF_none s rp fuel c (comps ++ [c.name]) i
                simpa [isEmpty_append_singleton] using this)
              (by
                intro c hm i hi
                exact ih c (comps ++ [c.name]) i (hkids c hm)
                  (by simpa [isEmpty_append_singleton] using hi))
              (idx + 1) (by omega)
              (by simp [visitsF, hroot] at hlt; omega)
            rcases h2 : walkSeq (fun c i => walkNodeF s (some k) rp fuel c (comps ++ [c.name]) i)
                children (idx + 1) with ⟨es2, idx3, ab2⟩
            rw [h2] at habort
            simp only at habort
            simp [walkNodeF, ctxDone, hdone, hroot, hcb, h2, habort]
        | false =>
          cases hig : s.matchesIgnorePattern n true with
          | true =>
            simp [visitsF, hroot, hig] at hlt
            omega
          | false =>
            cases rdErr with
            | true =>
              have hcb : s.scanCallback false false rp (relString comps)
                  (.dir n true children) false =
                (.ok, some { path := entryPath rp (relString comps), isDir := true,
                             relPath := relString comps, depth := countSlash (relString comps),
                             isBinary := false, readErr := false }) := by
                simp [Scanner.scanCallback, FSTree.isDir, FSTree.name, hig]
              have hdone2 : (decide (k ≤ idx + 1)) = true := by
                simp [visitsF, hroot, hig] at hlt
                exact decide_eq_true (by omega)
              simp [walkNodeF, ctxDone, hdone, hdone2, hroot, hcb, scanCallback_cancelled]
            | false =>
              have hcb : s.scanCallback false false rp (relString comps)
                  (.dir n false children) false =
                (.ok, some { path := entryPath rp (relString comps), isDir := true,
                             relPath := relString comps, depth := countSlash (relString comps),
                             isBinary := false, readErr := false }) := by
                simp [Scanner.scanCallback, FSTree.isDir, FSTree.name, hig]
              have habort := walkSeq_cancel_aborts s rp k fuel comps children
                (by
                  intro c _ i hi
                  rw [walkNodeF_cancel_of_le s rp k fuel c (comps ++ [c.name]) i
                    (by simpa [isEmpty_append_singleton] using hi)]
                  have := walkNodeF_none s rp fuel c (comps ++ [c.name]) i
                  simpa [isEmpty_append_singleton] using this)
                (by
                  intro c hm i hi
                  exact ih c (comps ++ [c.name]) i (hkids c hm)
                    (by simpa [isEmpty_append_singleton] using hi))
                (idx + 1) (by omega)
                (by simp [visitsF, hroot, hig] at hlt; omega)
              rcases h2 : walkSeq (fun c i => walkNodeF s (some k) rp fuel c (comps ++ [c.name]) i)
                  children (idx + 1) with ⟨es2, idx3, ab2⟩
              rw [h2] at habort
              simp only at habort
              simp [walkNodeF, ctxDone, hdone, hroot, hcb, h2, habort]

/-! ### Claim C2: the binary classifier -/

/-- C2: for every byte sequence given to the binary classifier (with the
default 1024-byte check size): a zero-byte sequence is classified not
binary; a nonempty sequence is classified binary if and only if some byte
among the first `min (length, 1024)` bytes — that is, some byte of
`content.take 1024` — is NUL. -/
theorem isBinaryFile_nul_prefix_rule (s : Scanner) (hs : s.binaryCheckSize = 1024)
    (content : List Nat) :
    s.isBinaryFile [] = false ∧
    (content ≠ [] → (s.isBinaryFile content = true ↔ 0 ∈ content.take 1024)) := by
  constructor
  · simp [Scanner.isBinaryFile]
  · intro hne
    have hlen : ¬ content.length = 0 := by simpa using hne
    simp only [Scanner.isBinaryFile, hs, if_neg hlen]
    have htake : content.take (if content.length > 1024 then 1024 else content.length) =
        content.take 1024 := by
      rcases le_or_lt content.length 1024 with hle | hgt
      · rw [if_neg (by omega), List.take_length, List.take_of_length_le hle]
      · rw [if_pos hgt]
    rw [htake, List.any_eq_true]
    constructor
    · rintro ⟨x, hx, hx0⟩
      have hx0' : x = 0 := by simpa using hx0
      subst hx0'
      exact hx
    · intro h0
      exact ⟨0, h0, by simp⟩

/-- Witness for C2 at concrete inputs. -/
theorem isBinaryFile_nul_prefix_rule_witness :
    (NewScanner [] false).binaryCheckSize = 1024 ∧
    ((NewScanner [] false).isBinaryFile [] = false ∧
      ([7, 0, 9] ≠ [] →
        ((NewScanner [] false).isBinaryFile [7, 0, 9] = true ↔ 0 ∈ [7, 0, 9].take 1024))) :=
  ⟨by decide, isBinaryFile_nul_prefix_rule (NewScanner [] false) (by decide) [7, 0, 9]⟩

/-! ### Claim C3: cancellation is all-or-nothing -/

/-- C3: if the cancellation signal fires at callback-invocation index `k`
and the uncancelled scan of the tree would have made more than `k`
callback invocations — that is, the signal has fired before some node is
visited — then `Scan` aborts with the distinct cancellation outcome and
returns no entry sequence: the accumulated entries are discarded. -/
theorem scan_cancelled_all_or_nothing (s : Scanner) (rp : String) (t : FSTree) (k : Nat)
    (hdir : t.isDir = true) (hk : k < visitsF s t.size true t) :
    s.Scan (some k) rp t = .error .canceled := by
  have h := walkNodeF_cancel_aborts s rp k t.size t [] 0 (le_refl _) (by simpa using hk)
  rcases hr : walkNodeF s (some k) rp t.size t [] 0 with ⟨es, i2, ab⟩
  rw [hr] at h
  simp only at h
  simp [Scanner.Scan, hdir, hr, h]

/-- Witness for C3: firing the signal before traversal starts (index 0)
cancels the scan of a one-file directory. -/
theorem scan_cancelled_all_or_nothing_witness :
    (NewScanner [] false).Scan (some 0) "/r"
      (.dir "r" false [.file "a.txt" [104] false false]) = .error .canceled :=
  scan_cancelled_all_or_nothing (NewScanner [] false) "/r"
    (.dir "r" false [.file "a.txt" [104] false false]) 0 (by decide) (by decide)

/-! ### Claim C6: validation of a path containing a null byte -/

/-- C6 counterexample: the claim says a null-byte path fails with the
`UnsafePath` category and no other.  But the null-byte check runs after
the `os.Stat` check, and `stat` fails on a null-byte path on a real
system (here: the oracle of an empty filesystem), so validation reports
the stat-failure (`NotFound`) category instead. -/
theorem validate_nul_byte_counterexample :
    containsNul "x\x00" = true ∧
    ValidateDirectoryPath (fun _ => none) "x\x00" = some .notFound ∧
    ValidateDirectoryPath (fun _ => none) "x\x00" ≠ some .unsafePath := by
  refine ⟨by decide, rfl, by decide⟩

/-- C6 amended: a path containing a null byte always fails validation,
but the failure category depends on the stat check that runs first: if
`stat` fails on the path (as it does on a real OS for any null-byte
path), the error is the `NotFound` category; the `UnsafePath` error is
reported only when `stat` succeeds and reports a directory. -/
theorem validate_nul_byte_amended (stat : String → Option Bool) (path : String)
    (h : containsNul path = true) :
    (∃ err, ValidateDirectoryPath stat path = some err) ∧
    (stat path = none → ValidateDirectoryPath stat path = some .notFound) ∧
    (stat path = some true → ValidateDirectoryPath stat path = some .unsafePath) := by
  have hne : ¬ path = "" := by
    intro he
    rw [he] at h
    simp [containsNul] at h
  refine ⟨?_, ?_, ?_⟩
  · cases hst : stat path with
    | none => exact ⟨.notFound, by simp [ValidateDirectoryPath, hne, hst]⟩
    | some b =>
      cases b with
      | false => exact ⟨.notADirectory, by simp [ValidateDirectoryPath, hne, hst]⟩
      | true => exact ⟨.unsafePath, by simp [ValidateDirectoryPath, hne, hst, h]⟩
  · intro hst
    simp [ValidateDirectoryPath, hne, hst]
  · intro hst
    simp [ValidateDirectoryPath, hne, hst, h]

/-- Witness for the amended C6. -/
theorem validate_nul_byte_amended_witness :
    (∃ err, ValidateDirectoryPath (fun _ => some true) "x\x00" = some err) ∧
    ((fun (_ : String) => some true) "x\x00" = none →
      ValidateDirectoryPath (fun _ => some true) "x\x00" = some .notFound) ∧
    ((fun (_ : String) => some true) "x\x00" = some true →
      ValidateDirectoryPath (fun _ => some true) "x\x00" = some .unsafePath) :=
  validate_nul_byte_amended (fun _ => some true) "x\x00" (by decide)

/-! ### Claim C4: binary exclusion -/

theorem isBinaryFile_set_iBF (s : Scanner) (b : Bool) (content : List Nat) :
    Scanner.isBinaryFile { s with ignoreBinaryFiles := b } content =
      s.isBinaryFile content := rfl

theorem matchesIgnorePattern_set_iBF (s : Scanner) (b : Bool) (name : String) (isDir : Bool) :
    Scanner.matchesIgnorePattern { s with ignoreBinaryFiles := b } name isDir =
      s.matchesIgnorePattern name isDir := rfl

theorem flatten_filter_of_pointwise {α β : Type} (p : α → Bool) (f g : β → List α)
    (cs : List β) (h : ∀ c ∈ cs, f c = (g c).filter p) :
    (cs.map f).flatten = ((cs.map g).flatten).filter p := by
  induction cs with
  | nil => simp
  | cons c rest ih =>
    simp only [List.map_cons, List.flatten_cons, List.filter_append]
    rw [h c (by simp), ih (fun c hm => h c (by simp [hm]))]

theorem annWalkF_ignoreBinary_filter (s : Scanner) (rp : String) :
    ∀ fuel t comps,
      annWalkF { s with ignoreBinaryFiles := true } rp fuel t comps =
        (annWalkF { s with ignoreBinaryFiles := false } rp fuel t comps).filter
          (fun ce => !ce.2.isBinary) := by
  intro fuel
  induction fuel with
  | zero => intro t comps; simp [annWalkF]
  | succ fuel ih =>
    intro t comps
    cases t with
    | file n cnt oe re =>
      by_cases hroot : comps.isEmpty = true
      · simp [annWalkF, Scanner.scanCallback, hroot]
      · replace hroot : comps.isEmpty = false := by simpa using hroot
        by_cases hig : s.matchesIgnorePattern n false = true
        · simp [annWalkF, Scanner.scanCallback, hroot, FSTree.name, FSTree.isDir,
            matchesIgnorePattern_set_iBF, isBinaryFile_set_iBF, hig]
        · replace hig : s.matchesIgnorePattern n false = false := by simpa using hig
          by_cases hre : (oe || re) = true
          · simp [annWalkF, Scanner.scanCallback, hroot, FSTree.name, FSTree.isDir,
              matchesIgnorePattern_set_iBF, isBinaryFile_set_iBF, hig, hre]
          · replace hre : (oe || re) = false := by simpa using hre
            by_cases hbin : s.isBinaryFile (cnt.take s.binaryCheckSize) = true
            · simp [annWalkF, Scanner.scanCallback, hroot, FSTree.name, FSTree.isDir,
                matchesIgnorePattern_set_iBF, isBinaryFile_set_iBF, hig, hre, hbin]
            · replace hbin : s.isBinaryFile (cnt.take s.binaryCheckSize) = false := by
                simpa using hbin
              simp [annWalkF, Scanner.scanCallback, hroot, FSTree.name, FSTree.isDir,
                matchesIgnorePattern_set_iBF, isBinaryFile_set_iBF, hig, hre, hbin]
    | dir n rdErr children =>
      have hflat := flatten_filter_of_pointwise (fun ce => !ce.2.isBinary)
        (fun c => annWalkF { s with ignoreBinaryFiles := true } rp fuel c (comps ++ [c.name]))
        (fun c => annWalkF { s with ignoreBinaryFiles := false } rp fuel c (comps ++ [c.name]))
        children (fun c _ => ih c (comps ++ [c.name]))
      by_cases hroot : comps.isEmpty = true
      · cases rdErr with
        | true => simp [annWalkF, Scanner.scanCallback, hroot]
        | false =>
          simp only [annWalkF, Scanner.scanCallback, hroot]
          simpa using hflat
      · replace hroot : comps.isEmpty = false := by simpa using hroot
        by_cases hig : s.matchesIgnorePattern n true = true
        · simp [annWalkF, Scanner.scanCallback, hroot, FSTree.name, FSTree.isDir,
            matchesIgnorePattern_set_iBF, hig]
        · replace hig : s.matchesIgnorePattern n true = false := by simpa using hig
          cases rdErr with
          | true =>
            simp [annWalkF, Scanner.scanCallback, hroot, FSTree.name, FSTree.isDir,
              matchesIgnorePattern_set_iBF, hig]
          | false =>
            simp only [annWalkF, Scanner.scanCallback, hroot, FSTree.name, FSTree.isDir,
              matchesIgnorePattern_set_iBF, hig]
            simp only [FSTree.name] at hflat
            simp [hflat, List.filter_append]

/-- C4 counterexample: with `ignoreBinaryFiles = true`, a file whose
content is binary but whose open fails is still emitted (its
classification is skipped), so the entry count is not the unrestricted
count minus the number of content-binary files in the tree. -/
theorem scan_binary_exclusion_counterexample :
    ∃ es1 es2 : List FileSystemEntry,
      (NewScanner [] true).Scan none "/r"
        (.dir "r" false [.file "a.dat" [0] true false]) = .ok es1 ∧
      (NewScanner [] false).Scan none "/r"
        (.dir "r" false [.file "a.dat" [0] true false]) = .ok es2 ∧
      FSTree.binCount (NewScanner [] false)
        (.dir "r" false [.file "a.dat" [0] true false]) = 1 ∧
      es1.length ≠ es2.length - FSTree.binCount (NewScanner [] false)
        (.dir "r" false [.file "a.dat" [0] true false]) := by
  refine ⟨[⟨"/r/a.dat", false, "a.dat", 0, false, true⟩],
    [⟨"/r/a.dat", false, "a.dat", 0, false, true⟩], rfl, rfl, rfl, by decide⟩

/-- C4 amended: for every scan with `ignoreBinaryFiles = true`, no entry
classified binary appears in the result, and the entry count equals the
count of the same scan with `ignoreBinaryFiles = false` minus the number
of entries classified binary in that unrestricted result (files whose
read fails, or inside ignored directories, are never classified
binary). -/
theorem scan_binary_exclusion_amended (s : Scanner) (rp : String) (t : FSTree)
    (es1 es2 : List FileSystemEntry)
    (h1 : Scanner.Scan { s with ignoreBinaryFiles := true } none rp t = .ok es1)
    (h2 : Scanner.Scan { s with ignoreBinaryFiles := false } none rp t = .ok es2) :
    (∀ e ∈ es1, e.isBinary = false) ∧
    es1.length + (es2.filter (fun e => e.isBinary)).length = es2.length := by
  have hdir : t.isDir = true := by
    cases hd : t.isDir with
    | false => rw [Scanner.Scan, if_pos hd] at h1; cases h1
    | true => rfl
  rw [Scan_none_eq _ rp t hdir] at h1 h2
  have he1 : es1 = (annWalkF { s with ignoreBinaryFiles := true } rp t.size t []).map Prod.snd := by
    cases h1; rfl
  have he2 : es2 = (annWalkF { s with ignoreBinaryFiles := false } rp t.size t []).map Prod.snd := by
    cases h2; rfl
  have hfil : es1 = es2.filter (fun e => !e.isBinary) := by
    rw [he1, he2, annWalkF_ignoreBinary_filter]
    rw [List.filter_map]
    rfl
  constructor
  · intro e he
    rw [hfil] at he
    have := List.of_mem_filter he
    simpa using this
  · rw [hfil]
    have hlen : es2.length = (es2.filter (fun e => e.isBinary)).length +
        (es2.filter (fun x => !x.isBinary)).length :=
      @List.length_eq_length_filter_add _ es2 (fun e => e.isBinary)
    omega

/-- Witness for the amended C4 on the spec's own example tree. -/
theorem scan_binary_exclusion_amended_witness :
    (∀ e ∈ [(⟨"/tmp/proj/a.txt", false, "a.txt", 0, false, false⟩ : FileSystemEntry),
            ⟨"/tmp/proj/sub", true, "sub", 0, false, false⟩,
            ⟨"/tmp/proj/sub/b.txt", false, "sub/b.txt", 1, false, false⟩],
        e.isBinary = false) ∧
    ([(⟨"/tmp/proj/a.txt", false, "a.txt", 0, false, false⟩ : FileSystemEntry),
      ⟨"/tmp/proj/sub", true, "sub", 0, false, false⟩,
      ⟨"/tmp/proj/sub/b.txt", false, "sub/b.txt", 1, false, false⟩].length +
      (([⟨"/tmp/proj/a.txt", false, "a.txt", 0, false, false⟩,
         ⟨"/tmp/proj/bin.dat", false, "bin.dat", 0, true, false⟩,
         ⟨"/tmp/proj/sub", true, "sub", 0, false, false⟩,
         ⟨"/tmp/proj/sub/b.txt", false, "sub/b.txt", 1, false, false⟩] :
          List FileSystemEntry).filter (fun e => e.isBinary)).length =
      ([(⟨"/tmp/proj/a.txt", false, "a.txt", 0, false, false⟩ : FileSystemEntry),
        ⟨"/tmp/proj/bin.dat", false, "bin.dat", 0, true, false⟩,
        ⟨"/tmp/proj/sub", true, "sub", 0, false, false⟩,
        ⟨"/tmp/proj/sub/b.txt", false, "sub/b.txt", 1, false, false⟩] :
         List FileSystemEntry).length) :=
  scan_binary_exclusion_amended (NewScanner [] false) "/tmp/proj"
    (.dir "proj" false
      [.file "a.txt" [104, 105] false false,
       .file "bin.dat" [0, 1, 2] false false,
       .dir "sub" false [.file "b.txt" [104] false false]])
    _ _ rfl rfl

/-! ### Fuel irrelevance: the walk's fuel only needs to dominate the tree -/

theorem annWalkF_fuel_irrel (s : Scanner) (rp : String) :
    ∀ f1 t comps f2, FSTree.size t ≤ f1 → FSTree.size t ≤ f2 →
      annWalkF s rp f1 t comps = annWalkF s rp f2 t comps := by
  intro f1
  induction f1 with
  | zero =>
    intro t comps f2 h1 _
    have := FSTree.size_pos t
    omega
  | succ f1 ih =>
    intro t comps f2 h1 h2
    obtain ⟨g2, rfl⟩ : ∃ g, f2 = g + 1 := by
      have := FSTree.size_pos t
      exact ⟨f2 - 1, by omega⟩
    rcases hcb : s.scanCallback false comps.isEmpty rp (relString comps) t false with ⟨res, eOpt⟩
    simp only [annWalkF, hcb]
    cases res with
    | canceled => rfl
    | skipDir => rfl
    | ok =>
      cases t with
      | file n cnt oe re => rfl
      | dir n rdErr children =>
        cases rdErr with
        | true => rfl
        | false =>
          have hkids : ∀ c ∈ children, FSTree.size c ≤ FSTree.sizeList children := by
            intro c hm
            exact FSTree.size_le_sizeList c children hm
          have hsz : FSTree.sizeList children ≤ f1 := by
            simp [FSTree.size] at h1
            omega
          have hsz2 : FSTree.sizeList children ≤ g2 := by
            simp [FSTree.size] at h2
            omega
          exact congrArg
            (fun l : List (List (List String × FileSystemEntry)) =>
              (Option.map (fun e => (comps, e)) eOpt).toList ++ l.flatten)
            (List.map_congr_left (fun c hm =>
              ih c (comps ++ [c.name]) g2 (by have := hkids c hm; omega)
                (by have := hkids c hm; omega)))

/-! ### Claim C7: per-node access errors are non-fatal -/

theorem annWalkF_dir_readDirErr (s : Scanner) (rp : String) (fuel : Nat) (n : String)
    (cs cs' : List FSTree) (comps : List String) :
    annWalkF s rp fuel (.dir n true cs) comps = annWalkF s rp fuel (.dir n true cs') comps := by
  cases fuel with
  | zero => rfl
  | succ fuel =>
    have hcb : ∀ cc : List FSTree,
        s.scanCallback false comps.isEmpty rp (relString comps) (.dir n true cc) false =
          s.scanCallback false comps.isEmpty rp (relString comps) (.dir n true cs) false := by
      intro cc
      simp [Scanner.scanCallback, FSTree.name, FSTree.isDir]
    simp only [annWalkF, hcb cs']
    rcases s.scanCallback false comps.isEmpty rp (relString comps) (.dir n true cs) false
      with ⟨res, eOpt⟩
    cases res <;> rfl

/-- C7: per-node access errors reported by the traversal are non-fatal
and prune exactly the failed node.  (1) The scan callback, invoked with a
traversal error on a node, emits no entry and answers `fs.SkipDir` for a
directory (pruning the subtree) and `nil` for a file (skipping only that
file).  (2) An uncancelled scan of a directory never fails: it always
returns an entry sequence.  (3) A scan of a tree containing a directory
whose `ReadDir` fails is the same as if that directory had no children at
all: its entire subtree is skipped without descending, and everything
else is scanned. -/
theorem scan_access_errors_nonfatal :
    (∀ (s : Scanner) (isRoot : Bool) (rp rel : String) (t : FSTree),
      s.scanCallback false isRoot rp rel t true =
        (if t.isDir then CbRes.skipDir else CbRes.ok, none)) ∧
    (∀ (s : Scanner) (rp : String) (t : FSTree), t.isDir = true →
      ∃ es, s.Scan none rp t = .ok es) ∧
    (∀ (s : Scanner) (rp rn : String) (rdE : Bool) (cs1 cs2 cs : List FSTree) (n : String),
      Scanner.Scan s none rp (.dir rn rdE (cs1 ++ .dir n true cs :: cs2)) =
        Scanner.Scan s none rp (.dir rn rdE (cs1 ++ .dir n true [] :: cs2))) := by
  refine ⟨?_, ?_, ?_⟩
  · intro s isRoot rp rel t
    simp [Scanner.scanCallback]
  · intro s rp t hdir
    exact ⟨_, Scan_none_eq s rp t hdir⟩
  · intro s rp rn rdE cs1 cs2 cs n
    set t1 : FSTree := .dir rn rdE (cs1 ++ .dir n true cs :: cs2) with ht1
    set t2 : FSTree := .dir rn rdE (cs1 ++ .dir n true [] :: cs2) with ht2
    rw [Scan_none_eq s rp t1 (by simp [ht1, FSTree.isDir]),
        Scan_none_eq s rp t2 (by simp [ht2, FSTree.isDir])]
    have hann : annWalkF s rp (FSTree.size t1) t1 [] = annWalkF s rp (FSTree.size t2) t2 [] := by
      have hF1 : FSTree.size t1 ≤ FSTree.size t1 + FSTree.size t2 := by omega
      have hF2 : FSTree.size t2 ≤ FSTree.size t1 + FSTree.size t2 := by omega
      rw [annWalkF_fuel_irrel s rp (FSTree.size t1) t1 [] (FSTree.size t1 + FSTree.size t2)
          (le_refl _) hF1,
        annWalkF_fuel_irrel s rp (FSTree.size t2) t2 [] (FSTree.size t1 + FSTree.size t2)
          (le_refl _) hF2]
      obtain ⟨g, hg⟩ : ∃ g, FSTree.size t1 + FSTree.size t2 = g + 1 := by
        have := FSTree.size_pos t1
        exact ⟨FSTree.size t1 + FSTree.size t2 - 1, by omega⟩
      rw [hg]
      rcases hcb1 : s.scanCallback false (List.isEmpty ([] : List String)) rp
          (relString ([] : List String)) t1 false with ⟨res1, e1⟩
      have hcb2 : s.scanCallback false (List.isEmpty ([] : List String)) rp
          (relString ([] : List String)) t2 false = (res1, e1) := by
        rw [← hcb1]
        cases rdE <;> simp [ht1, ht2, Scanner.scanCallback]
      rw [ht2] at hcb2
      rw [ht1, ht2]
      simp only [annWalkF, hcb1, hcb2]
      cases res1 with
      | canceled => rfl
      | skipDir => rfl
      | ok =>
        cases rdE with
        | true => rfl
        | false =>
          simp only [List.map_append, List.map_cons]
          exact congrArg
            (fun x => (Option.map (fun e => (([] : List String), e)) e1).toList ++
              (List.map (fun c => annWalkF s rp g c ([] ++ [c.name])) cs1 ++
                x :: List.map (fun c => annWalkF s rp g c ([] ++ [c.name])) cs2).flatten)
            (annWalkF_dir_readDirErr s rp g n cs []
              ([] ++ [FSTree.name (.dir n true cs)]))
    rw [hann]

/-- Witness for C7 at concrete inputs: an unreadable directory's subtree
is skipped, the directory itself is still listed, and the scan
succeeds. -/
theorem scan_access_errors_nonfatal_witness :
    ((NewScanner [] false).scanCallback false false "/r" "d"
        (.dir "d" true [.file "x" [] false false]) true = (CbRes.skipDir, none)) ∧
    (∃ es, (NewScanner [] false).Scan none "/r"
      (.dir "r" false
        [.dir "bad" true [.file "hidden.txt" [104] false false],
         .file "ok.txt" [104] false false]) = .ok es) ∧
    ((NewScanner [] false).Scan none "/r"
        (.dir "r" false
          [.dir "bad" true [.file "hidden.txt" [104] false false],
           .file "ok.txt" [104] false false]) =
      (NewScanner [] false).Scan none "/r"
        (.dir "r" false
          [.dir "bad" true [], .file "ok.txt" [104] false false])) :=
  ⟨scan_access_errors_nonfatal.1 (NewScanner [] false) false "/r" "d"
      (.dir "d" true [.file "x" [] false false]),
   scan_access_errors_nonfatal.2.1 (NewScanner [] false) "/r"
      (.dir "r" false
        [.dir "bad" true [.file "hidden.txt" [104] false false],
         .file "ok.txt" [104] false false]) (by decide),
   scan_access_errors_nonfatal.2.2 (NewScanner [] false) "/r" "r" false
      [] [.file "ok.txt" [104] false false] [.file "hidden.txt" [104] false false] "bad"⟩

/-! ### Relative-path strings of component lists -/

theorem validNameB_iff (n : String) :
    validNameB n = true ↔ n ≠ "" ∧ '/' ∉ n.data := by
  constructor
  · intro h
    simp only [validNameB, Bool.and_eq_true, Bool.not_eq_true'] at h
    obtain ⟨h1, h2⟩ := h
    constructor
    · intro he
      subst he
      simp at h1
    · intro hm
      rw [decide_eq_true hm] at h2
      cases h2
  · rintro ⟨h1, h2⟩
    simp only [validNameB, Bool.and_eq_true, Bool.not_eq_true']
    constructor
    · cases hn : n.data.isEmpty
      · rfl
      · exact absurd (by cases n with
          | mk d => cases d with
            | nil => rfl
            | cons x xs => simp at hn) h1
    · exact decide_eq_false h2

theorem relString_cons_cons (x y : String) (rest : List String) :
    relString (x :: y :: rest) = x ++ "/" ++ relString (y :: rest) := rfl

theorem relString_append_singleton (c : List String) (x : String) (h : c ≠ []) :
    relString (c ++ [x]) = relString c ++ "/" ++ x := by
  induction c with
  | nil => exact absurd rfl h
  | cons y rest ih =>
    cases rest with
    | nil => simp [relString]
    | cons z rest' =>
      have h2 : relString ((y :: z :: rest') ++ [x]) =
          y ++ "/" ++ relString ((z :: rest') ++ [x]) := rfl
      rw [h2, ih (by simp), relString_cons_cons]
      simp [String.append_assoc]

theorem countSlash_append (a b : String) :
    countSlash (a ++ b) = countSlash a + countSlash b := by
  simp [countSlash, String.data_append, List.count_append]

theorem countSlash_of_no_sep (n : String) (h : '/' ∉ n.data) : countSlash n = 0 := by
  simp [countSlash, List.count_eq_zero]
  intro hm
  exact absurd hm h

theorem countSlash_relString (c : List String)
    (hv : ∀ x ∈ c, validNameB x = true) (hne : c ≠ []) :
    countSlash (relString c) = c.length - 1 := by
  induction c with
  | nil => exact absurd rfl hne
  | cons x rest ih =>
    cases rest with
    | nil =>
      have := (validNameB_iff x).mp (hv x (by simp))
      simp [relString, countSlash_of_no_sep x this.2]
    | cons y rest' =>
      rw [relString_cons_cons, countSlash_append, countSlash_append]
      have hx := (validNameB_iff x).mp (hv x (by simp))
      rw [countSlash_of_no_sep x hx.2]
      have hsep : countSlash "/" = 1 := rfl
      rw [hsep, ih (fun z hz => hv z (by simp [hz])) (by simp)]
      simp
      omega

theorem sep_mem_relString (c : List String)
    (hv : ∀ x ∈ c, validNameB x = true) (hne : c ≠ []) :
    '/' ∈ (relString c).data ↔ 2 ≤ c.length := by
  have hc := countSlash_relString c hv hne
  have hmem : '/' ∈ (relString c).data ↔ 0 < countSlash (relString c) := by
    simp [countSlash, List.count_pos_iff]
  rw [hmem, hc]
  have : c.length ≠ 0 := by
    intro h
    exact hne (List.length_eq_zero.mp h)
  omega

/-! ### Name validity propagates to the walked component lists -/

theorem FSTree.validB_name (t : FSTree) (h : t.validB = true) :
    validNameB t.name = true := by
  cases t with
  | file n cnt oe re => simpa [FSTree.validB, FSTree.name] using h
  | dir n rd cs =>
    simp [FSTree.validB, FSTree.name, Bool.and_eq_true] at h ⊢
    exact h.1.1

theorem FSTree.validListB_mem (cs : List FSTree) (c : FSTree)
    (h : FSTree.validListB cs = true) (hm : c ∈ cs) : c.validB = true := by
  induction cs with
  | nil => simp at hm
  | cons d rest ih =>
    simp [FSTree.validListB, Bool.and_eq_true] at h
    rcases List.mem_cons.mp hm with rfl | hm'
    · exact h.1
    · exact ih h.2 hm'

theorem FSTree.validB_children (n : String) (rd : Bool) (cs : List FSTree)
    (h : (FSTree.dir n rd cs).validB = true) :
    FSTree.validListB cs = true ∧ (cs.map FSTree.name).Nodup := by
  simp [FSTree.validB, Bool.and_eq_true] at h
  exact ⟨h.1.2, h.2⟩

theorem annWalkF_comps_valid (s : Scanner) (rp : String) :
    ∀ fuel t comps ce, t.validB = true → (∀ x ∈ comps, validNameB x = true) →
      ce ∈ annWalkF s rp fuel t comps → ∀ x ∈ ce.1, validNameB x = true := by
  intro fuel
  induction fuel with
  | zero => intro t comps ce _ _ h; simp [annWalkF] at h
  | succ fuel ih =>
    intro t comps ce hv hc h
    rcases annWalkF_mem_cases s rp fuel t comps ce h with ⟨e, _, rfl⟩ | ⟨n, children, c, rfl, hcm, hce⟩
    · exact hc
    · have hvc : c.validB = true :=
        FSTree.validListB_mem children c (FSTree.validB_children n false children hv).1 hcm
      have hc' : ∀ x ∈ comps ++ [c.name], validNameB x = true := by
        intro x hx
        rcases List.mem_append.mp hx with hx | hx
        · exact hc x hx
        · rw [List.mem_singleton.mp hx]
          exact FSTree.validB_name c hvc
      exact ih c (comps ++ [c.name]) ce hvc hc' hce

/-! ### The pre-order block invariant -/

theorem blockOK_nil (base : List String) : BlockOK base [] := by
  intro pre ce post h
  exact absurd h (by simp)

theorem append_cons_cases {α : Type} (A B pre post : List α) (ce : α)
    (h : A ++ B = pre ++ ce :: post) :
    (∃ post1, A = pre ++ ce :: post1) ∨
    (∃ pre2, pre = A ++ pre2 ∧ B = pre2 ++ ce :: post) := by
  rcases List.append_eq_append_iff.mp h with ⟨a', h1, h2⟩ | ⟨c', h1, h2⟩
  · exact .inr ⟨a', h1, h2⟩
  · cases c' with
    | nil =>
      refine .inr ⟨[], by simp [h1], ?_⟩
      simp at h2
      simp [h2]
    | cons x c'' =>
      have hx : ce = x ∧ post = c'' ++ B := by
        have := h2
        simp only [List.cons_append] at this
        exact ⟨(List.cons.injEq _ _ _ _).mp this |>.1, (List.cons.injEq _ _ _ _).mp this |>.2⟩
      exact .inl ⟨c'', by rw [h1, hx.1]⟩

theorem scanCallback_dir_cases (s : Scanner) (rp rel : String) (n : String) (rd : Bool)
    (cs : List FSTree) :
    s.scanCallback false false rp rel (.dir n rd cs) false = (.skipDir, none) ∨
    s.scanCallback false false rp rel (.dir n rd cs) false =
      (.ok, some { path := entryPath rp rel, isDir := true, relPath := rel,
                   depth := countSlash rel, isBinary := false, readErr := false }) := by
  by_cases hig : s.matchesIgnorePattern n true = true
  · left
    simp [Scanner.scanCallback, FSTree.isDir, FSTree.name, hig]
  · right
    replace hig : s.matchesIgnorePattern n true = false := by simpa using hig
    simp [Scanner.scanCallback, FSTree.isDir, FSTree.name, hig]

theorem blockOK_kids (s : Scanner) (rp : String) (fuel : Nat) (comps : List String)
    (hN : ∀ t (c' : List String), c'.isEmpty = false →
      annWalkF s rp fuel t c' = [] ∨
      ∃ e rest, annWalkF s rp fuel t c' = (c', e) :: rest ∧
        (rest ≠ [] → e.isDir = true) ∧ BlockOK c' rest) :
    ∀ cs : List FSTree, BlockOK comps
      ((cs.map (fun c => annWalkF s rp fuel c (comps ++ [c.name]))).flatten) := by
  intro cs
  induction cs with
  | nil => simpa using blockOK_nil comps
  | cons c rest ih =>
    simp only [List.map_cons, List.flatten_cons]
    intro pre ce post h
    rcases append_cons_cases _ _ pre post ce h with ⟨post1, hA⟩ | ⟨pre2, hpre, hB⟩
    · rcases hN c (comps ++ [c.name]) (isEmpty_append_singleton comps c.name) with
        hempty | ⟨e, restA, hshape, hdir, hBO⟩
      · rw [hempty] at hA
        exact absurd hA.symm (by simp)
      · rw [hshape] at hA
        cases pre with
        | nil =>
          simp only [List.nil_append] at hA
          have hce : ce = (comps ++ [c.name], e) := ((List.cons.injEq _ _ _ _).mp hA).1.symm
          subst hce
          refine ⟨List.prefix_append comps [c.name], ?_, .inl (List.dropLast_concat)⟩
          intro heq
          have := congrArg List.length heq
          simp at this
        | cons p0 pre' =>
          simp only [List.cons_append] at hA
          have hp0 : p0 = (comps ++ [c.name], e) := ((List.cons.injEq _ _ _ _).mp hA).1.symm
          have hrest : restA = pre' ++ ce :: post1 := ((List.cons.injEq _ _ _ _).mp hA).2
          obtain ⟨hpref, hne, hdisj⟩ := hBO pre' ce post1 hrest
          have hlen1 : (comps ++ [c.name]).length ≤ ce.1.length := hpref.length_le
          have hlen2 : (comps ++ [c.name]).length < ce.1.length := by
            rcases Nat.lt_or_ge (comps ++ [c.name]).length ce.1.length with h' | h'
            · exact h'
            · exact absurd (hpref.eq_of_length (by omega)).symm hne
          simp only [List.length_append, List.length_cons, List.length_nil] at hlen1 hlen2
          refine ⟨(List.prefix_append comps [c.name]).trans hpref, ?_, ?_⟩
          · intro heq
            have := congrArg List.length heq
            simp at this
            omega
          · right
            rcases hdisj with hdl | ⟨pe, hpemem, hpe1, hpedir⟩
            · refine ⟨p0, by simp, ?_, ?_⟩
              · rw [hp0, hdl]
              · rw [hp0]
                exact hdir (by rw [hrest]; simp)
            · exact ⟨pe, by simp [hpemem], hpe1, hpedir⟩
    · obtain ⟨hpref, hne, hdisj⟩ := ih pre2 ce post hB
      refine ⟨hpref, hne, ?_⟩
      rcases hdisj with hdl | ⟨pe, hpemem, hpe1, hpedir⟩
      · exact .inl hdl
      · exact .inr ⟨pe, by rw [hpre]; exact List.mem_append_right _ hpemem, hpe1, hpedir⟩

theorem annWalkF_node_shape (s : Scanner) (rp : String) :
    ∀ fuel t (comps : List String), comps.isEmpty = false →
      annWalkF s rp fuel t comps = [] ∨
      ∃ e rest, annWalkF s rp fuel t comps = (comps, e) :: rest ∧
        (rest ≠ [] → e.isDir = true) ∧ BlockOK comps rest := by
  intro fuel
  induction fuel with
  | zero => intro t comps _; exact .inl rfl
  | succ fuel ih =>
    intro t comps hroot
    cases t with
    | file n cnt oe re =>
      rcases hcb : s.scanCallback false comps.isEmpty rp (relString comps)
          (.file n cnt oe re) false with ⟨res, eOpt⟩
      have hres : res = .ok := by
        have := scanCallback_fst_file s comps.isEmpty rp (relString comps) n cnt oe re false
        rw [hcb] at this
        exact this
      subst hres
      cases eOpt with
      | none => exact .inl (by simp [annWalkF, hcb])
      | some e =>
        exact .inr ⟨e, [], by simp [annWalkF, hcb], by simp, blockOK_nil comps⟩
    | dir n rdErr children =>
      rcases scanCallback_dir_cases s rp (relString comps) n rdErr children with hcb | hcb
      · exact .inl (by simp [annWalkF, hroot, hcb])
      · cases rdErr with
        | true =>
          refine .inr ⟨⟨entryPath rp (relString comps), true, relString comps,
            countSlash (relString comps), false, false⟩, [], ?_, by simp, blockOK_nil comps⟩
          simp [annWalkF, hroot, hcb]
        | false =>
          refine .inr ⟨⟨entryPath rp (relString comps), true, relString comps,
            countSlash (relString comps), false, false⟩,
            (children.map (fun c => annWalkF s rp fuel c (comps ++ [c.name]))).flatten,
            ?_, fun _ => rfl, blockOK_kids s rp fuel comps ih children⟩
          simp [annWalkF, hroot, hcb]

theorem blockOK_scan_root (s : Scanner) (rp : String) (fuel : Nat) (t : FSTree)
    (hdir : t.isDir = true) :
    BlockOK [] (annWalkF s rp fuel t []) := by
  cases fuel with
  | zero => exact blockOK_nil []
  | succ fuel =>
    cases t with
    | file n cnt oe re => simp [FSTree.isDir] at hdir
    | dir n rdErr children =>
      have hcb : s.scanCallback false (List.isEmpty ([] : List String)) rp
          (relString ([] : List String)) (.dir n rdErr children) false = (.ok, none) := by
        simp [Scanner.scanCallback]
      cases rdErr with
      | true => simpa [annWalkF, hcb] using blockOK_nil ([] : List String)
      | false =>
        have := blockOK_kids s rp fuel [] (annWalkF_node_shape s rp fuel) children
        simpa [annWalkF, hcb] using this

theorem map_eq_append_cons {α β : Type} (f : α → β) :
    ∀ (l : List α) (pre : List β) (x : β) (post : List β), l.map f = pre ++ x :: post →
    ∃ l1 a l2, l = l1 ++ a :: l2 ∧ l1.map f = pre ∧ f a = x ∧ l2.map f = post := by
  intro l
  induction l with
  | nil => intro pre x post h; exact absurd h (by simp)
  | cons a l ih =>
    intro pre x post h
    cases pre with
    | nil =>
      simp only [List.map_cons, List.nil_append] at h
      exact ⟨[], a, l, rfl, rfl, ((List.cons.injEq _ _ _ _).mp h).1,
        ((List.cons.injEq _ _ _ _).mp h).2⟩
    | cons p pre' =>
      simp only [List.map_cons, List.cons_append] at h
      obtain ⟨h1, h2⟩ := (List.cons.injEq _ _ _ _).mp h
      obtain ⟨l1, b, l2, hl, hm1, hm2, hm3⟩ := ih pre' x post h2
      exact ⟨a :: l1, b, l2, by simp [hl], by simp [hm1, h1], hm2, hm3⟩

/-! ### Claim C1: pre-order parent guarantee -/

/-- C1: in every scan result of a legal filesystem tree, every entry
whose relative path contains a separator is preceded in the sequence by
its immediate parent directory entry: a directory entry whose relative
path is the entry's path with the final `/`-separated component removed,
and whose depth is one less than the entry's depth. -/
theorem scan_preorder_parent (s : Scanner) (rp : String) (t : FSTree)
    (hv : t.validB = true) (es : List FileSystemEntry)
    (hscan : s.Scan none rp t = .ok es)
    (pre : List FileSystemEntry) (e : FileSystemEntry) (post : List FileSystemEntry)
    (hsplit : es = pre ++ e :: post)
    (hsep : '/' ∈ e.relPath.data) :
    ∃ p ∈ pre, p.isDir = true ∧ e.depth = p.depth + 1 ∧
      ∃ nm : String, nm ≠ "" ∧ '/' ∉ nm.data ∧ e.relPath = p.relPath ++ "/" ++ nm := by
  have hdir : t.isDir = true := by
    cases hd : t.isDir with
    | false => rw [Scanner.Scan, if_pos hd] at hscan; cases hscan
    | true => rfl
  rw [Scan_none_eq s rp t hdir] at hscan
  have hes : es = (annWalkF s rp t.size t []).map Prod.snd := by cases hscan; rfl
  rw [hes] at hsplit
  obtain ⟨preA, ceA, postA, hann, hpreA, hceA, hpostA⟩ :=
    map_eq_append_cons Prod.snd (annWalkF s rp t.size t []) pre e post hsplit
  have hBO := blockOK_scan_root s rp t.size t hdir preA ceA postA hann
  obtain ⟨hpref, hne0, hdisj⟩ := hBO
  have hmemce : ceA ∈ annWalkF s rp t.size t [] := by rw [hann]; simp
  have helem := annWalkF_elem s rp t.size t [] ceA hmemce
  obtain ⟨_, hrel, hdep⟩ := helem
  have hvalid := annWalkF_comps_valid s rp t.size t [] ceA hv (by simp) hmemce
  have hne : ceA.1 ≠ [] := by simpa using hne0
  have hsep' : '/' ∈ (relString ceA.1).data := by rw [← hrel, hceA]; exact hsep
  have hlen2 : 2 ≤ ceA.1.length := (sep_mem_relString ceA.1 hvalid hne).mp hsep'
  have hdlne : ceA.1.dropLast ≠ ([] : List String) := by
    intro h
    have := congrArg List.length h
    simp [List.length_dropLast] at this
    omega
  rcases hdisj with hdl | ⟨pe, hpemem, hpe1, hpedir⟩
  · exact absurd hdl hdlne
  · have hmempe : pe ∈ annWalkF s rp t.size t [] := by
      rw [hann]
      exact List.mem_append_left _ hpemem
    obtain ⟨_, hprel, hpdep⟩ := annWalkF_elem s rp t.size t [] pe hmempe
    have hpvalid := annWalkF_comps_valid s rp t.size t [] pe hv (by simp) hmempe
    have hvd : ∀ x ∈ ceA.1.dropLast, validNameB x = true := by
      intro x hx
      exact hvalid x (List.dropLast_subset _ hx)
    have hcs2 : countSlash (relString ceA.1.dropLast) = ceA.1.dropLast.length - 1 :=
      countSlash_relString ceA.1.dropLast hvd hdlne
    have hld : ceA.1.dropLast.length = ceA.1.length - 1 := List.length_dropLast _
    have hdecomp : ceA.1.dropLast ++ [ceA.1.getLast hne] = ceA.1 :=
      List.dropLast_append_getLast hne
    refine ⟨pe.2, ?_, hpedir, ?_, ceA.1.getLast hne, ?_, ?_, ?_⟩
    · rw [← hpreA]
      exact List.mem_map_of_mem Prod.snd hpemem
    · have hcs1 : countSlash (relString ceA.1) = ceA.1.length - 1 :=
        countSlash_relString ceA.1 hvalid hne
      rw [hceA] at hdep
      have hpd2 : pe.2.depth = ceA.1.dropLast.length - 1 := by
        rw [hpdep, hpe1, hcs2]
      rw [hdep, hcs1, hpd2, hld]
      omega
    · have hmemlast : ceA.1.getLast hne ∈ ceA.1 := List.getLast_mem hne
      exact ((validNameB_iff _).mp (hvalid _ hmemlast)).1
    · have hmemlast : ceA.1.getLast hne ∈ ceA.1 := List.getLast_mem hne
      exact ((validNameB_iff _).mp (hvalid _ hmemlast)).2
    · have hstep := relString_append_singleton ceA.1.dropLast (ceA.1.getLast hne) hdlne
      rw [hdecomp] at hstep
      rw [← hceA, hrel, hstep, hprel, hpe1]

/-- Witness for C1 on the spec's example tree: the deepest entry
`sub/b.txt` is preceded by its parent directory entry `sub`. -/
theorem scan_preorder_parent_witness :
    ∃ p ∈ [(⟨"/tmp/proj/a.txt", false, "a.txt", 0, false, false⟩ : FileSystemEntry),
           ⟨"/tmp/proj/bin.dat", false, "bin.dat", 0, true, false⟩,
           ⟨"/tmp/proj/sub", true, "sub", 0, false, false⟩],
      p.isDir = true ∧
      (⟨"/tmp/proj/sub/b.txt", false, "sub/b.txt", 1, false, false⟩ :
        FileSystemEntry).depth = p.depth + 1 ∧
      ∃ nm : String, nm ≠ "" ∧ '/' ∉ nm.data ∧
        (⟨"/tmp/proj/sub/b.txt", false, "sub/b.txt", 1, false, false⟩ :
          FileSystemEntry).relPath = p.relPath ++ "/" ++ nm :=
  scan_preorder_parent (NewScanner [] false) "/tmp/proj"
    (.dir "proj" false
      [.file "a.txt" [104, 105] false false,
       .file "bin.dat" [0, 1, 2] false false,
       .dir "sub" false [.file "b.txt" [104] false false]])
    (by decide) _ rfl
    [⟨"/tmp/proj/a.txt", false, "a.txt", 0, false, false⟩,
     ⟨"/tmp/proj/bin.dat", false, "bin.dat", 0, true, false⟩,
     ⟨"/tmp/proj/sub", true, "sub", 0, false, false⟩]
    ⟨"/tmp/proj/sub/b.txt", false, "sub/b.txt", 1, false, false⟩ [] rfl (by decide)

/-! ### Claim C10: read failures exempt a file from binary exclusion -/

theorem annWalkF_file_readErr (s : Scanner) (rp : String) (g : Nat) (n : String)
    (cnt : List Nat) (oe re : Bool) (comps : List String)
    (hg : 1 ≤ g) (hc : comps.isEmpty = false) (herr : (oe || re) = true)
    (hig : s.matchesIgnorePattern n false = false) :
    annWalkF s rp g (.file n cnt oe re) comps =
      [(comps, ⟨entryPath rp (relString comps), false, relString comps,
        countSlash (relString comps), false, true⟩)] := by
  obtain ⟨g', rfl⟩ : ∃ g', g = g' + 1 := ⟨g - 1, by omega⟩
  simp [annWalkF, Scanner.scanCallback, hc, FSTree.name, FSTree.isDir, hig, herr]

theorem scan_root_children_flatten (s : Scanner) (rp rn : String) (cs : List FSTree) :
    annWalkF s rp (FSTree.size (.dir rn false cs)) (.dir rn false cs) [] =
      ((cs.map (fun c => annWalkF s rp (FSTree.sizeList cs) c ([] ++ [c.name]))).flatten) := by
  have hsz : FSTree.size (.dir rn false cs) = FSTree.sizeList cs + 1 := by
    simp [FSTree.size]
    omega
  rw [hsz]
  have hcb : s.scanCallback false true rp (relString ([] : List String))
      (.dir rn false cs) false = (.ok, none) := by
    simp [Scanner.scanCallback]
  simp [annWalkF, hcb]

/-- C10 (implicit): with `ignoreBinaryFiles = true`, a file whose open or
prefix read fails is never suppressed by binary exclusion — its
classification is skipped, `isBinary` stays `false`, and the entry (with
`readErr` set) is always emitted, even when the file's content is in fact
binary. -/
theorem scan_read_failure_never_suppressed (s : Scanner) (rp rn : String)
    (cs1 cs2 : List FSTree) (n : String) (cnt : List Nat) (oe re : Bool)
    (herr : (oe || re) = true)
    (hig : Scanner.matchesIgnorePattern { s with ignoreBinaryFiles := true } n false = false)
    (es : List FileSystemEntry)
    (hscan : Scanner.Scan { s with ignoreBinaryFiles := true } none rp
      (.dir rn false (cs1 ++ .file n cnt oe re :: cs2)) = .ok es) :
    ∃ e ∈ es, e.relPath = n ∧ e.readErr = true ∧ e.isBinary = false := by
  set s' : Scanner := { s with ignoreBinaryFiles := true } with hs'
  set f : FSTree := .file n cnt oe re with hf
  set cs : List FSTree := cs1 ++ f :: cs2 with hcs
  have hdir : (FSTree.dir rn false cs).isDir = true := rfl
  rw [Scan_none_eq s' rp _ hdir] at hscan
  have hes : es = (annWalkF s' rp (FSTree.size (.dir rn false cs)) (.dir rn false cs) []).map
      Prod.snd := by cases hscan; rfl
  have hL : 1 ≤ FSTree.sizeList cs := by
    have h1 : FSTree.size f ≤ FSTree.sizeList cs :=
      FSTree.size_le_sizeList f cs (by rw [hcs]; exact List.mem_append_right _ (by simp))
    have h2 := FSTree.size_pos f
    omega
  have hblock := annWalkF_file_readErr s' rp (FSTree.sizeList cs) n cnt oe re
    ([] ++ [FSTree.name f]) hL (by simp [hf, FSTree.name]) herr hig
  refine ⟨⟨entryPath rp (relString ([] ++ [FSTree.name f])), false,
    relString ([] ++ [FSTree.name f]),
    countSlash (relString ([] ++ [FSTree.name f])), false, true⟩, ?_, by simp [hf, FSTree.name, relString], rfl, rfl⟩
  rw [hes, scan_root_children_flatten]
  have hmemblk : (([] ++ [FSTree.name f]),
      (⟨entryPath rp (relString ([] ++ [FSTree.name f])), false,
        relString ([] ++ [FSTree.name f]),
        countSlash (relString ([] ++ [FSTree.name f])), false, true⟩ : FileSystemEntry)) ∈
      (List.map (fun c => annWalkF s' rp (FSTree.sizeList cs) c ([] ++ [c.name])) cs).flatten := by
    apply List.mem_flatten.mpr
    refine ⟨annWalkF s' rp (FSTree.sizeList cs) f ([] ++ [f.name]), ?_, ?_⟩
    · exact List.mem_map_of_mem _ (by rw [hcs]; exact List.mem_append_right _ (by simp))
    · rw [hf] at hblock ⊢
      rw [hblock]
      simp
  exact List.mem_map.mpr ⟨_, hmemblk, rfl⟩

/-- Witness for C10: a content-binary file with a failing open survives a
binary-excluding scan. -/
theorem scan_read_failure_never_suppressed_witness :
    ∃ e ∈ [(⟨"/r/x.bin", false, "x.bin", 0, false, true⟩ : FileSystemEntry)],
      e.relPath = "x.bin" ∧ e.readErr = true ∧ e.isBinary = false :=
  scan_read_failure_never_suppressed (NewScanner [] true) "/r" "r" [] [] "x.bin" [0, 1]
    true false (by decide) (by decide) _ rfl

/-! ### Claim C8: open failure still yields exactly one visible entry -/

theorem filter_nil_of_none {α : Type} (p : α → Bool) (l : List α)
    (h : ∀ a ∈ l, p a = false) : l.filter p = [] := by
  induction l with
  | nil => rfl
  | cons x xs ih =>
    rw [List.filter_cons, h x (by simp)]
    simpa using ih (fun a ha => h a (by simp [ha]))

theorem annWalkF_readErr_not_binary (s : Scanner) (rp : String) :
    ∀ fuel t comps ce, ce ∈ annWalkF s rp fuel t comps →
      ce.2.readErr = true → ce.2.isBinary = false := by
  intro fuel
  induction fuel with
  | zero => intro t comps ce h; simp [annWalkF] at h
  | succ fuel ih =>
    intro t comps ce h hre
    rcases annWalkF_mem_cases s rp fuel t comps ce h with ⟨e, he, rfl⟩ | ⟨m, children, c, _, hc, hce⟩
    · obtain ⟨hdirF, hfileF⟩ := scanCallback_entry_flags s false comps.isEmpty rp
        (relString comps) t false e he
      have hre' : e.readErr = true := hre
      show e.isBinary = false
      cases t with
      | dir m rd cs => exact absurd hre' (by simp [(hdirF rfl).2])
      | file m cnt oe re =>
        obtain ⟨h1, h2, _⟩ := hfileF m cnt oe re rfl
        rw [h2, if_pos (h1 ▸ hre')]
    · exact ih c _ ce hce hre

theorem annWalkF_child_relPath_ne (s : Scanner) (rp : String) (L : Nat) (c : FSTree)
    (n : String) (hvc : c.validB = true) (hcn : c.name ≠ n) (hnv : validNameB n = true)
    (ce : List String × FileSystemEntry)
    (hce : ce ∈ annWalkF s rp L c [c.name]) :
    ce.2.relPath ≠ n := by
  obtain ⟨hpre, hrel, _⟩ := annWalkF_elem s rp L c [c.name] ce hce
  obtain ⟨rest, hrest⟩ := hpre
  simp only [List.singleton_append] at hrest
  cases rest with
  | nil =>
    rw [hrel, ← hrest]
    have h1 : relString [c.name] = c.name := rfl
    rw [h1]
    exact hcn
  | cons y ys =>
    have hval : ∀ x ∈ ce.1, validNameB x = true := by
      apply annWalkF_comps_valid s rp L c [c.name] ce hvc ?_ hce
      intro x hx
      simp at hx
      subst hx
      exact FSTree.validB_name c hvc
    have hlen : 2 ≤ ce.1.length := by
      rw [← hrest]
      simp only [List.length_cons]
      omega
    have hne : ce.1 ≠ [] := by
      intro h
      rw [h] at hrest
      exact absurd hrest (by simp)
    have hsep : '/' ∈ (relString ce.1).data := (sep_mem_relString ce.1 hval hne).mpr hlen
    intro h
    rw [← hrel, h] at hsep
    exact ((validNameB_iff n).mp hnv).2 hsep

/-- C8: for every non-ignored file whose open for classification fails,
an entry is still emitted with `readErr` set and `isBinary` false — binary
is never asserted on an error path (first conjunct: globally, a read error
forces `isBinary = false`), and the file yields exactly one entry visible
to the caller (second conjunct, for a top-level open-failing file of a
valid tree). -/
theorem scan_open_failure_single_entry (s : Scanner) (rp rn : String)
    (cs1 cs2 : List FSTree) (n : String) (cnt : List Nat) (re : Bool)
    (hv : (FSTree.dir rn false (cs1 ++ .file n cnt true re :: cs2)).validB = true)
    (hig : s.matchesIgnorePattern n false = false)
    (es : List FileSystemEntry)
    (hscan : s.Scan none rp (.dir rn false (cs1 ++ .file n cnt true re :: cs2)) = .ok es) :
    (∀ e ∈ es, e.readErr = true → e.isBinary = false) ∧
    ((es.filter (fun e => decide (e.relPath = n))).length = 1 ∧
     ∀ e ∈ es, e.relPath = n → e.readErr = true ∧ e.isBinary = false) := by
  set f : FSTree := .file n cnt true re with hf
  set cs : List FSTree := cs1 ++ f :: cs2 with hcs
  have hdir : (FSTree.dir rn false cs).isDir = true := rfl
  rw [Scan_none_eq s rp _ hdir] at hscan
  have hes : es = (annWalkF s rp (FSTree.size (.dir rn false cs)) (.dir rn false cs) []).map
      Prod.snd := by cases hscan; rfl
  have hpart1 : ∀ e ∈ es, e.readErr = true → e.isBinary = false := by
    intro e he hre
    rw [hes] at he
    obtain ⟨ce, hcem, rfl⟩ := List.mem_map.mp he
    exact annWalkF_readErr_not_binary s rp _ _ _ ce hcem hre
  rw [scan_root_children_flatten] at hes
  set L : Nat := FSTree.sizeList cs with hLdef
  have hL : 1 ≤ L := by
    have h1 : FSTree.size f ≤ FSTree.sizeList cs :=
      FSTree.size_le_sizeList f cs (by rw [hcs]; exact List.mem_append_right _ (by simp))
    have h2 := FSTree.size_pos f
    omega
  have hblock := annWalkF_file_readErr s rp L n cnt true re [n] hL (by simp) (by simp) hig
  have hvalidList : FSTree.validListB cs = true := (FSTree.validB_children rn false cs hv).1
  have hnv : validNameB n = true := by
    have hfv : f.validB = true := FSTree.validListB_mem cs f hvalidList
      (by rw [hcs]; exact List.mem_append_right _ (by simp))
    simpa [hf, FSTree.validB] using hfv
  have hnodup : ((cs1 ++ f :: cs2).map FSTree.name).Nodup := by
    have hx := (FSTree.validB_children rn false cs hv).2
    rw [hcs] at hx
    exact hx
  have hmapname : (cs1 ++ f :: cs2).map FSTree.name =
      cs1.map FSTree.name ++ n :: cs2.map FSTree.name := by
    simp [hf, FSTree.name]
  rw [hmapname] at hnodup
  have hnotmem : n ∉ cs1.map FSTree.name ++ cs2.map FSTree.name := by
    have hx := List.nodup_middle.mp hnodup
    exact (List.nodup_cons.mp hx).1
  have hother : ∀ c ∈ cs1 ++ cs2, ∀ ce ∈ annWalkF s rp L c [c.name],
      ce.2.relPath ≠ n := by
    intro c hcm ce hce
    have hcmem : c ∈ cs := by
      rw [hcs]
      rcases List.mem_append.mp hcm with h | h
      · exact List.mem_append_left _ h
      · exact List.mem_append_right _ (List.mem_cons_of_mem _ h)
    have hvc : c.validB = true := FSTree.validListB_mem cs c hvalidList hcmem
    have hcn : c.name ≠ n := by
      intro h
      apply hnotmem
      rcases List.mem_append.mp hcm with hmm | hmm
      · exact List.mem_append_left _ (h ▸ List.mem_map_of_mem FSTree.name hmm)
      · exact List.mem_append_right _ (h ▸ List.mem_map_of_mem FSTree.name hmm)
    exact annWalkF_child_relPath_ne s rp L c n hvc hcn hnv ce hce
  have hdecomp : es =
      ((cs1.map (fun c => annWalkF s rp L c [c.name])).flatten).map Prod.snd ++
      (((annWalkF s rp L (.file n cnt true re) [n]).map Prod.snd) ++
      ((cs2.map (fun c => annWalkF s rp L c [c.name])).flatten).map Prod.snd) := by
    rw [hes, hcs, hf]
    simp [List.map_append, List.flatten_append, FSTree.name]
  set p : FileSystemEntry → Bool := fun e => decide (e.relPath = n) with hp
  have hAside : ∀ cc : List FSTree,
      (∀ c ∈ cc, ∀ ce ∈ annWalkF s rp L c [c.name], ce.2.relPath ≠ n) →
      (((cc.map (fun c => annWalkF s rp L c [c.name])).flatten).map Prod.snd).filter p = [] := by
    intro cc hcc
    apply filter_nil_of_none
    intro e he
    obtain ⟨ce, hcem, rfl⟩ := List.mem_map.mp he
    obtain ⟨blkl, hblkm, hcein⟩ := List.mem_flatten.mp hcem
    obtain ⟨c, hcm, rfl⟩ := List.mem_map.mp hblkm
    have hne := hcc c hcm ce hcein
    simp only [hp]
    exact decide_eq_false hne
  have hA1 := hAside cs1 (fun c hc => hother c (List.mem_append_left _ hc))
  have hA2 := hAside cs2 (fun c hc => hother c (List.mem_append_right _ hc))
  have hBf : ((annWalkF s rp L (.file n cnt true re) [n]).map Prod.snd).filter p =
      [⟨entryPath rp n, false, n, countSlash n, false, true⟩] := by
    rw [hblock]
    simp [hp, relString]
  have hfilter : es.filter p = [⟨entryPath rp n, false, n, countSlash n, false, true⟩] := by
    rw [hdecomp, List.filter_append, List.filter_append, hA1, hA2, hBf]
    simp
  refine ⟨hpart1, ?_, ?_⟩
  · rw [hfilter]
    rfl
  · intro e he hrel
    rw [hdecomp] at he
    rcases List.mem_append.mp he with h1 | h12
    · exfalso
      obtain ⟨ce, hcem, rfl⟩ := List.mem_map.mp h1
      obtain ⟨blkl, hblkm, hcein⟩ := List.mem_flatten.mp hcem
      obtain ⟨c, hcm, rfl⟩ := List.mem_map.mp hblkm
      exact hother c (List.mem_append_left _ hcm) ce hcein hrel
    rcases List.mem_append.mp h12 with h2 | h3
    · rw [hblock] at h2
      simp at h2
      subst h2
      exact ⟨rfl, rfl⟩
    · exfalso
      obtain ⟨ce, hcem, rfl⟩ := List.mem_map.mp h3
      obtain ⟨blkl, hblkm, hcein⟩ := List.mem_flatten.mp hcem
      obtain ⟨c, hcm, rfl⟩ := List.mem_map.mp hblkm
      exact hother c (List.mem_append_right _ hcm) ce hcein hrel

/-- Witness for C8: a single open-failing file produces exactly one entry,
with `readErr` true and `isBinary` false. -/
theorem scan_open_failure_single_entry_witness :
    (∀ e ∈ [(⟨"/r/x.bin", false, "x.bin", 0, false, true⟩ : FileSystemEntry)],
      e.readErr = true → e.isBinary = false) ∧
    ((([(⟨"/r/x.bin", false, "x.bin", 0, false, true⟩ : FileSystemEntry)].filter
      (fun e => decide (e.relPath = "x.bin"))).length = 1) ∧
     ∀ e ∈ [(⟨"/r/x.bin", false, "x.bin", 0, false, true⟩ : FileSystemEntry)],
      e.relPath = "x.bin" → e.readErr = true ∧ e.isBinary = false) :=
  scan_open_failure_single_entry (NewScanner [] false) "/r" "r" [] [] "x.bin" [65] false
    (by decide) (by decide) _ rfl

/-! ### Claim C9: malformed glob patterns are skipped, never fatal -/

theorem globMatch_lbracket (name : String) : globMatch "[" name = none := rfl

theorem matchLoop_malformed_transparent (name : String) (d : Bool) (p : String)
    (hbad : globMatch p name = none) (hsep : hasSepSuffix p = false)
    (ps1 ps2 : List String) :
    matchLoop name d (ps1 ++ p :: ps2) = matchLoop name d (ps1 ++ ps2) := by
  induction ps1 with
  | nil => simp [matchLoop, hsep, hbad]
  | cons q rest ih =>
    simp only [List.cons_append, matchLoop, List.append_eq]
    rw [ih]

theorem scanCallback_congr (s1 s2 : Scanner)
    (hb : s1.binaryCheckSize = s2.binaryCheckSize)
    (hi : s1.ignoreBinaryFiles = s2.ignoreBinaryFiles)
    (hm : ∀ name d, s1.matchesIgnorePattern name d = s2.matchesIgnorePattern name d)
    (cancelled isRoot : Bool) (rp rel : String) (t : FSTree) (we : Bool) :
    s1.scanCallback cancelled isRoot rp rel t we = s2.scanCallback cancelled isRoot rp rel t we := by
  have hbin : ∀ content : List Nat, s1.isBinaryFile content = s2.isBinaryFile content := by
    intro content
    simp [Scanner.isBinaryFile, hb]
  cases t with
  | dir m rd cs => simp only [Scanner.scanCallback, hm]
  | file m cnt oe re => simp only [Scanner.scanCallback, hm, hb, hi, hbin]

theorem walkSeq_congr (w1 w2 : FSTree → Nat → List FileSystemEntry × Nat × Bool)
    (cs : List FSTree) (h : ∀ c ∈ cs, ∀ idx, w1 c idx = w2 c idx) :
    ∀ idx, walkSeq w1 cs idx = walkSeq w2 cs idx := by
  induction cs with
  | nil => intro idx; rfl
  | cons c rest ih =>
    intro idx
    have hih := ih (fun c hc => h c (List.mem_cons_of_mem _ hc))
    simp only [walkSeq, h c (List.mem_cons_self c rest), hih]

theorem walkNodeF_congr (s1 s2 : Scanner) (cancelAt : Option Nat) (rp : String)
    (hcb : ∀ cancelled isRoot rel t we, s1.scanCallback cancelled isRoot rp rel t we
      = s2.scanCallback cancelled isRoot rp rel t we) :
    ∀ fuel t comps idx, walkNodeF s1 cancelAt rp fuel t comps idx =
      walkNodeF s2 cancelAt rp fuel t comps idx := by
  intro fuel
  induction fuel with
  | zero => intro t comps idx; rfl
  | succ fuel ih =>
    intro t comps idx
    have hws : ∀ (children : List FSTree) (cm : List String) (j : Nat),
        walkSeq (fun c i => walkNodeF s1 cancelAt rp fuel c (cm ++ [c.name]) i) children j =
        walkSeq (fun c i => walkNodeF s2 cancelAt rp fuel c (cm ++ [c.name]) i) children j := by
      intro children cm j
      exact walkSeq_congr _ _ children (fun c hc i => ih c (cm ++ [c.name]) i) j
    simp only [walkNodeF, hcb, hws]

/-- C9: a malformed glob pattern in the configured pattern list is treated
as non-matching for every node: the ignore predicate behaves as if the
pattern were absent, the whole scan result is unchanged by the pattern's
presence, and the scan still completes normally (it never aborts because
of the malformed pattern). -/
theorem scan_malformed_pattern_harmless (s : Scanner) (p : String)
    (hbad : ∀ name, globMatch p name = none) (hsep : hasSepSuffix p = false)
    (ps1 ps2 : List String) (hps : s.ignorePatterns = ps1 ++ p :: ps2)
    (cancelAt : Option Nat) (rp : String) (t : FSTree) :
    (∀ name d, s.matchesIgnorePattern name d =
      Scanner.matchesIgnorePattern { s with ignorePatterns := ps1 ++ ps2 } name d) ∧
    s.Scan cancelAt rp t =
      Scanner.Scan { s with ignorePatterns := ps1 ++ ps2 } cancelAt rp t ∧
    (t.isDir = true → ∃ es, s.Scan none rp t = .ok es) := by
  have hm : ∀ name d, s.matchesIgnorePattern name d =
      Scanner.matchesIgnorePattern { s with ignorePatterns := ps1 ++ ps2 } name d := by
    intro name d
    show matchLoop name d s.ignorePatterns = matchLoop name d (ps1 ++ ps2)
    rw [hps]
    exact matchLoop_malformed_transparent name d p (hbad name) hsep ps1 ps2
  refine ⟨hm, ?_, ?_⟩
  · have hcb : ∀ cancelled isRoot rel t' we, s.scanCallback cancelled isRoot rp rel t' we =
        Scanner.scanCallback { s with ignorePatterns := ps1 ++ ps2 }
          cancelled isRoot rp rel t' we :=
      fun cancelled isRoot rel t' we =>
        scanCallback_congr s { s with ignorePatterns := ps1 ++ ps2 } rfl rfl hm
          cancelled isRoot rp rel t' we
    have hwn := walkNodeF_congr s { s with ignorePatterns := ps1 ++ ps2 } cancelAt rp hcb
    simp only [Scanner.Scan, hwn]
  · intro hdir
    exact ⟨_, Scan_none_eq s rp t hdir⟩

/-- Witness for C9: the malformed pattern `"["` in the configured list
changes nothing and the scan completes. -/
theorem scan_malformed_pattern_harmless_witness :
    (∀ name d, Scanner.matchesIgnorePattern (NewScanner ["["] false) name d =
      Scanner.matchesIgnorePattern
        { NewScanner ["["] false with
          ignorePatterns := [".git", ".DS_Store", ".idea", ".vscode"] ++ [] } name d) ∧
    Scanner.Scan (NewScanner ["["] false) none "/r"
        (.dir "r" false [.file "a.txt" [65] false false]) =
      Scanner.Scan
        { NewScanner ["["] false with
          ignorePatterns := [".git", ".DS_Store", ".idea", ".vscode"] ++ [] } none "/r"
        (.dir "r" false [.file "a.txt" [65] false false]) ∧
    ((FSTree.dir "r" false [.file "a.txt" [65] false false]).isDir = true →
      ∃ es, Scanner.Scan (NewScanner ["["] false) none "/r"
        (.dir "r" false [.file "a.txt" [65] false false]) = .ok es) :=
  scan_malformed_pattern_harmless (NewScanner ["["] false) "["
    globMatch_lbracket (by decide) [".git", ".DS_Store", ".idea", ".vscode"] [] rfl
    none "/r" (.dir "r" false [.file "a.txt" [65] false false])

/-! ### Claim C5: ignore-pattern semantics and directory pruning -/

theorem FSTree.sizeList_append (l1 l2 : List FSTree) :
    FSTree.sizeList (l1 ++ l2) = FSTree.sizeList l1 + FSTree.sizeList l2 := by
  induction l1 with
  | nil => simp [FSTree.sizeList]
  | cons c rest ih =>
    simp [FSTree.sizeList, ih]
    omega

theorem annWalkF_ignored (s : Scanner) (rp : String) (fuel : Nat) (t : FSTree)
    (comps : List String) (hce : comps.isEmpty = false)
    (hig : s.matchesIgnorePattern t.name t.isDir = true) :
    annWalkF s rp fuel t comps = [] := by
  cases fuel with
  | zero => rfl
  | succ fuel =>
    cases t with
    | file m cnt oe re =>
      simp only [FSTree.name, FSTree.isDir] at hig
      simp [annWalkF, Scanner.scanCallback, hce, FSTree.name, FSTree.isDir, hig]
    | dir m rd cc =>
      simp only [FSTree.name, FSTree.isDir] at hig
      simp [annWalkF, Scanner.scanCallback, hce, FSTree.name, FSTree.isDir, hig]

/-- C5: a configured pattern ending in the path separator matches exactly
the directories whose base name equals the pattern with the trailing
separator stripped (first conjunct); any other pattern matches by
shell-style glob against the base name (second conjunct); a directory
matching an ignore pattern is pruned before descent, so the scan result
is the same as if the directory's whole subtree were absent (third
conjunct); in particular `"*.log"` excludes a file named `report.log` but
not `report.log.txt`, and `"build/"` excludes a directory named `build`
but not a file named `build` (fourth conjunct). -/
theorem ignore_pattern_semantics (s : Scanner) (rp : String) :
    (∀ p name d, hasSepSuffix p = true →
      matchLoop name d [p] = (d && decide (trimSepSuffix p = name))) ∧
    (∀ p name d b, hasSepSuffix p = false → globMatch p name = some b →
      matchLoop name d [p] = b) ∧
    (∀ rn n e cs cs1 cs2, s.matchesIgnorePattern n true = true →
      s.Scan none rp (.dir rn false (cs1 ++ .dir n e cs :: cs2)) =
      s.Scan none rp (.dir rn false (cs1 ++ cs2))) ∧
    ((NewScanner ["*.log", "build/"] false).matchesIgnorePattern "report.log" false = true ∧
     (NewScanner ["*.log", "build/"] false).matchesIgnorePattern "report.log.txt" false = false ∧
     (NewScanner ["*.log", "build/"] false).matchesIgnorePattern "build" true = true ∧
     (NewScanner ["*.log", "build/"] false).matchesIgnorePattern "build" false = false) := by
  refine ⟨?_, ?_, ?_, by decide⟩
  · intro p name d hsep
    cases d <;> by_cases he : trimSepSuffix p = name <;> simp [matchLoop, hsep, he]
  · intro p name d b hsep hglob
    cases b <;> simp [matchLoop, hsep, hglob]
  · intro rn n e cs cs1 cs2 hig
    have hd1 : (FSTree.dir rn false (cs1 ++ FSTree.dir n e cs :: cs2)).isDir = true := rfl
    have hd2 : (FSTree.dir rn false (cs1 ++ cs2)).isDir = true := rfl
    rw [Scan_none_eq s rp _ hd1, Scan_none_eq s rp _ hd2]
    rw [scan_root_children_flatten, scan_root_children_flatten]
    set L1 : Nat := FSTree.sizeList (cs1 ++ FSTree.dir n e cs :: cs2) with hL1
    set L2 : Nat := FSTree.sizeList (cs1 ++ cs2) with hL2
    have hL21 : L2 ≤ L1 := by
      rw [hL1, hL2, FSTree.sizeList_append, FSTree.sizeList_append]
      have hp := FSTree.size_pos (FSTree.dir n e cs)
      simp only [FSTree.sizeList]
      omega
    have hblk : ∀ c ∈ cs1 ++ cs2,
        annWalkF s rp L1 c ([] ++ [c.name]) = annWalkF s rp L2 c ([] ++ [c.name]) := by
      intro c hc
      have hcL2 : FSTree.size c ≤ L2 := FSTree.size_le_sizeList c (cs1 ++ cs2) hc
      exact annWalkF_fuel_irrel s rp L1 c _ L2 (le_trans hcL2 hL21) hcL2
    have hdblk : annWalkF s rp L1 (FSTree.dir n e cs)
        ([] ++ [FSTree.name (FSTree.dir n e cs)]) = [] :=
      annWalkF_ignored s rp L1 _ _ (by simp)
        (by simpa [FSTree.name, FSTree.isDir] using hig)
    have hm1 : List.map (fun c => annWalkF s rp L1 c ([] ++ [c.name])) cs1 =
        List.map (fun c => annWalkF s rp L2 c ([] ++ [c.name])) cs1 :=
      List.map_congr_left (fun c hc => hblk c (List.mem_append_left _ hc))
    have hm2 : List.map (fun c => annWalkF s rp L1 c ([] ++ [c.name])) cs2 =
        List.map (fun c => annWalkF s rp L2 c ([] ++ [c.name])) cs2 :=
      List.map_congr_left (fun c hc => hblk c (List.mem_append_right _ hc))
    have hmain : (List.map (fun c => annWalkF s rp L1 c ([] ++ [c.name]))
        (cs1 ++ FSTree.dir n e cs :: cs2)).flatten =
        (List.map (fun c => annWalkF s rp L2 c ([] ++ [c.name])) (cs1 ++ cs2)).flatten := by
      rw [List.map_append, List.map_append, List.map_cons]
      rw [List.flatten_append, List.flatten_append, List.flatten_cons]
      rw [hm1, hm2, hdblk]
      simp
    rw [hmain]

/-- Witness for C5: the `build/` pattern prunes the `build` directory with
its subtree, and the sample pattern evaluations hold. -/
theorem ignore_pattern_semantics_witness :
    matchLoop "build" true ["build/"] =
      (true && decide (trimSepSuffix "build/" = "build")) ∧
    matchLoop "report.log" false ["*.log"] = true ∧
    (Scanner.Scan (NewScanner ["*.log", "build/"] false) none "/r"
        (.dir "r" false ([] ++ FSTree.dir "build" false
          [FSTree.file "o.txt" [65] false false] :: [FSTree.file "a.txt" [66] false false])) =
      Scanner.Scan (NewScanner ["*.log", "build/"] false) none "/r"
        (.dir "r" false ([] ++ [FSTree.file "a.txt" [66] false false]))) ∧
    ((NewScanner ["*.log", "build/"] false).matchesIgnorePattern "report.log" false = true ∧
     (NewScanner ["*.log", "build/"] false).matchesIgnorePattern "report.log.txt" false = false ∧
     (NewScanner ["*.log", "build/"] false).matchesIgnorePattern "build" true = true ∧
     (NewScanner ["*.log", "build/"] false).matchesIgnorePattern "build" false = false) :=
  ⟨(ignore_pattern_semantics (NewScanner ["*.log", "build/"] false) "/r").1
      "build/" "build" true (by decide),
   (ignore_pattern_semantics (NewScanner ["*.log", "build/"] false) "/r").2.1
      "*.log" "report.log" false true (by decide) (by decide),
   (ignore_pattern_semantics (NewScanner ["*.log", "build/"] false) "/r").2.2.1
      "r" "build" false [FSTree.file "o.txt" [65] false false] []
      [FSTree.file "a.txt" [66] false false] (by decide),
   (ignore_pattern_semantics (NewScanner ["*.log", "build/"] false) "/r").2.2.2⟩

end FolderScope
